import Mathlib

/-!
Verification of the partitioned transaction processor (files
`src/models.rs` and `src/processing.rs`).

Modelling choices (shallow embedding):

* `rust_decimal::Decimal` (exact decimal arithmetic) is modelled by `ℚ`;
  the operations used by the program are addition, subtraction and
  comparison, which the rational numbers model exactly.
* `ClientId` (`u16`) and `TransactionId` (`u32`) are modelled by `ℕ`;
  the program only compares and hashes them, so the width is irrelevant.
* The three `HashMap`s of a `Partition` are modelled as functions into
  `Option`, with pointwise insertion (`mapInsert`).
* `Account::withdraw` contains a fatal assertion (`assert!`); it is
  modelled by an `Option`-returning function (`none` models the panic).
  `Partition.process` is the total transition function in which the
  withdrawal branch inlines the subtraction under the caller's guard,
  exactly as the Rust code executes it; `Partition.processOpt` is the
  panic-propagating version, and the two are proved to agree (claim C8).
* `Processor` routes each transaction to worker `hash(client_id) % n`
  (`DefaultHasher` in the source); the hash is modelled as an arbitrary
  function `ClientId → ℕ`.  Per the concurrency model of the source
  (one command channel per worker, drained in submission order by a
  single thread owning one `Partition`), the final state of worker `w`
  is `Partition.processAll` over the subsequence of the stream routed
  to `w`, and the result set collected by `wait` is the union of the
  workers' account maps.
-/

namespace Transactor

attribute [local semireducible] Rat.add Rat.sub Rat.mul Rat.inv Rat.ofScientific

abbrev ClientId := ℕ

abbrev TransactionId := ℕ

/-- Transaction meta information (`Meta` in `models.rs`). -/
structure Meta where
  client_id : ClientId
  transaction_id : TransactionId
deriving DecidableEq, Repr

/-- Transaction model (`Transaction` in `models.rs`). -/
inductive Transaction where
  | Deposit (meta : Meta) (amount : ℚ)
  | Withdrawal (meta : Meta) (amount : ℚ)
  | Dispute (meta : Meta)
  | Resolve (meta : Meta)
  | Chargeback (meta : Meta)
deriving DecidableEq, Repr

/-- Returns transaction metadata (`Transaction::meta`). -/
def Transaction.meta : Transaction → Meta
  | .Deposit m _ => m
  | .Withdrawal m _ => m
  | .Dispute m => m
  | .Resolve m => m
  | .Chargeback m => m

/-- Client account model (`Account` in `models.rs`). -/
structure Account where
  available_funds : ℚ
  held_funds : ℚ
  is_locked : Bool
deriving DecidableEq, Repr

/-- Creates a new unlocked account with zero funds (`Account::new`). -/
def Account.new : Account := ⟨0, 0, false⟩

/-- The frozen check (`Account::is_frozen`). -/
def Account.is_frozen (a : Account) : Bool := a.is_locked

/-- Deposits the given amount (`Account::deposit`). -/
def Account.deposit (a : Account) (amount : ℚ) : Account :=
  { a with available_funds := a.available_funds + amount }

/-- Withdraws the given amount (`Account::withdraw`).  The Rust function
asserts `available_funds >= amount` and panics otherwise; the panic is
modelled by `none`. -/
def Account.withdraw (a : Account) (amount : ℚ) : Option Account :=
  if a.available_funds ≥ amount then
    some { a with available_funds := a.available_funds - amount }
  else
    none

/-- Holds the specified fund amount (`Account::hold_funds`). -/
def Account.hold_funds (a : Account) (amount : ℚ) : Account :=
  { a with available_funds := a.available_funds - amount,
           held_funds := a.held_funds + amount }

/-- Releases the previously held amount (`Account::release_funds`). -/
def Account.release_funds (a : Account) (amount : ℚ) : Account :=
  { a with available_funds := a.available_funds + amount,
           held_funds := a.held_funds - amount }

/-- Charges the previously held amount and locks the account
(`Account::chargeback`). -/
def Account.chargeback (a : Account) (amount : ℚ) : Account :=
  { a with held_funds := a.held_funds - amount, is_locked := true }

/-- Pointwise insertion into a map modelled as a function
(`HashMap::insert`). -/
def mapInsert {α β : Type} [DecidableEq α] (m : α → Option β) (k : α) (v : β) :
    α → Option β :=
  fun k' => if k' = k then some v else m k'

/-- The disputable amount of a referenced transaction (`disputed_amount`
in `processing.rs`): only a deposit belonging to the given client yields
an amount. -/
def disputed_amount (tr : Transaction) (client_id : ClientId) : Option ℚ :=
  if tr.meta.client_id ≠ client_id then
    none
  else
    match tr with
    | .Deposit _ a => some a
    | _ => none

/-- Partition state (`Partition` in `processing.rs`). -/
structure Partition where
  transaction_history : TransactionId → Option Transaction
  disputed_transactions : TransactionId → Option Transaction
  accounts : ClientId → Option Account

/-- Creates a new empty partition (`Partition::new`). -/
def Partition.new : Partition :=
  ⟨fun _ => none, fun _ => none, fun _ => none⟩

/-- The account of a client as the processing loop sees it:
`accounts.entry(c).or_insert_with(Account::new)`. -/
def Partition.acct (p : Partition) (c : ClientId) : Account :=
  (p.accounts c).getD Account.new

/-- Processes one transaction (`Partition::process`), total semantics.
The structure follows the Rust function line by line: look up or create
the account, return early if it is frozen, dispatch on the transaction
kind, and finally record the transaction in the history under its own
`transaction_id`.  The withdrawal branch inlines the body of
`Account::withdraw` under the `available >= amount` guard checked by the
caller (the assertion inside `withdraw` cannot fire there; see the
theorem for claim C8). -/
def Partition.process (p : Partition) (tr : Transaction) : Partition :=
  let meta := tr.meta
  let acc := (p.accounts meta.client_id).getD Account.new
  let p0 : Partition := { p with accounts := mapInsert p.accounts meta.client_id acc }
  if acc.is_frozen then p0
  else
    let p1 : Partition :=
      match tr with
      | .Deposit _ a =>
          { p0 with accounts := mapInsert p0.accounts meta.client_id (acc.deposit a) }
      | .Withdrawal _ a =>
          if acc.available_funds ≥ a then
            let acc' : Account := { acc with available_funds := acc.available_funds - a }
            { p0 with accounts := mapInsert p0.accounts meta.client_id acc' }
          else p0
      | .Dispute _ =>
          match p0.transaction_history meta.transaction_id with
          | some disputed_tr =>
              match disputed_amount disputed_tr meta.client_id with
              | some amount =>
                  { p0 with
                    accounts := mapInsert p0.accounts meta.client_id (acc.hold_funds amount),
                    disputed_transactions :=
                      mapInsert p0.disputed_transactions disputed_tr.meta.transaction_id disputed_tr }
              | none => p0
          | none => p0
      | .Resolve _ =>
          match p0.disputed_transactions meta.transaction_id with
          | some disputed_tr =>
              match disputed_amount disputed_tr meta.client_id with
              | some amount =>
                  { p0 with accounts := mapInsert p0.accounts meta.client_id (acc.release_funds amount) }
              | none => p0
          | none => p0
      | .Chargeback _ =>
          match p0.disputed_transactions meta.transaction_id with
          | some disputed_tr =>
              match disputed_amount disputed_tr meta.client_id with
              | some amount =>
                  { p0 with accounts := mapInsert p0.accounts meta.client_id (acc.chargeback amount) }
              | none => p0
          | none => p0
    { p1 with transaction_history := mapInsert p1.transaction_history meta.transaction_id tr }

/-- Panic-propagating version of `Partition::process`: the assertion in
`Account::withdraw` is modelled by the `Option`. -/
def Partition.processOpt (p : Partition) (tr : Transaction) : Option Partition :=
  let meta := tr.meta
  let acc := (p.accounts meta.client_id).getD Account.new
  let p0 : Partition := { p with accounts := mapInsert p.accounts meta.client_id acc }
  if acc.is_frozen then some p0
  else
    let p1? : Option Partition :=
      match tr with
      | .Deposit _ a =>
          some { p0 with accounts := mapInsert p0.accounts meta.client_id (acc.deposit a) }
      | .Withdrawal _ a =>
          if acc.available_funds ≥ a then
            (Account.withdraw acc a).map
              (fun acc' => { p0 with accounts := mapInsert p0.accounts meta.client_id acc' })
          else some p0
      | .Dispute _ =>
          match p0.transaction_history meta.transaction_id with
          | some disputed_tr =>
              match disputed_amount disputed_tr meta.client_id with
              | some amount =>
                  some { p0 with
                    accounts := mapInsert p0.accounts meta.client_id (acc.hold_funds amount),
                    disputed_transactions :=
                      mapInsert p0.disputed_transactions disputed_tr.meta.transaction_id disputed_tr }
              | none => some p0
          | none => some p0
      | .Resolve _ =>
          match p0.disputed_transactions meta.transaction_id with
          | some disputed_tr =>
              match disputed_amount disputed_tr meta.client_id with
              | some amount =>
                  some { p0 with accounts := mapInsert p0.accounts meta.client_id (acc.release_funds amount) }
              | none => some p0
          | none => some p0
      | .Chargeback _ =>
          match p0.disputed_transactions meta.transaction_id with
          | some disputed_tr =>
              match disputed_amount disputed_tr meta.client_id with
              | some amount =>
                  some { p0 with accounts := mapInsert p0.accounts meta.client_id (acc.chargeback amount) }
              | none => some p0
          | none => some p0
    p1?.map (fun p1 =>
      { p1 with transaction_history := mapInsert p1.transaction_history meta.transaction_id tr })

/-- Sequential processing of a whole stream by one partition. -/
def Partition.processAll (p : Partition) (l : List Transaction) : Partition :=
  l.foldl Partition.process p

/-- The subsequence of the stream routed to worker `w` by a routing
function (the per-worker command queue, drained in submission order). -/
def shardStream (route : ClientId → ℕ) (w : ℕ) (l : List Transaction) :
    List Transaction :=
  l.filter (fun tr => route tr.meta.client_id = w)

/-- Final state of worker `w` after `Processor::wait`: its partition has
sequentially processed exactly the transactions routed to it. -/
def workerFinal (route : ClientId → ℕ) (w : ℕ) (l : List Transaction) : Partition :=
  Partition.processAll Partition.new (shardStream route w l)

/-- The final account record for a client in the result set collected by
`Processor::wait` from `n` workers, with transactions routed to worker
`hash(client_id) % n` as in `Processor::process`.  A client's account
can only live in the worker its id routes to. -/
def Processor.finalAccount (n : ℕ) (hash : ClientId → ℕ) (l : List Transaction)
    (c : ClientId) : Option Account :=
  (workerFinal (fun c' => hash c' % n) (hash c % n) l).accounts c

/-- The final account for a client when the whole stream is processed
sequentially by a single partition. -/
def singleFinal (l : List Transaction) (c : ClientId) : Option Account :=
  (Partition.processAll Partition.new l).accounts c

/-- One submission step of the worker pool: only the worker the
transaction routes to processes it. -/
def stepW (route : ClientId → ℕ) (W : ℕ → Partition) (tr : Transaction) :
    ℕ → Partition :=
  fun w => if w = route tr.meta.client_id then (W w).process tr else W w

/-- Worker states after submitting a stream transaction by transaction. -/
def runW (route : ClientId → ℕ) (W : ℕ → Partition) (l : List Transaction) :
    ℕ → Partition :=
  l.foldl (stepW route) W

/-- The client that owns a transaction id in a stream: the client of the
first transaction carrying that id (arbitrary when the id is unused). -/
def ownerOf (l : List Transaction) (t : TransactionId) : ClientId :=
  ((l.find? (fun tr => tr.meta.transaction_id == t)).map
    (fun tr => tr.meta.client_id)).getD 0

/-- Simulation relation between the sequential partition state `S` and
the family `W` of worker partition states: accounts live in the worker
their client routes to, history and dispute entries live in the worker
their id's owning client routes to, and agree with the sequential run. -/
def Rel (ow : TransactionId → ClientId) (route : ClientId → ℕ)
    (S : Partition) (W : ℕ → Partition) : Prop :=
  (∀ c, (W (route c)).accounts c = S.accounts c) ∧
  (∀ w c, w ≠ route c → (W w).accounts c = none) ∧
  (∀ t, (W (route (ow t))).transaction_history t = S.transaction_history t) ∧
  (∀ w t, w ≠ route (ow t) → (W w).transaction_history t = none) ∧
  (∀ t, (W (route (ow t))).disputed_transactions t = S.disputed_transactions t) ∧
  (∀ w t, w ≠ route (ow t) → (W w).disputed_transactions t = none) ∧
  (∀ t tr, S.transaction_history t = some tr → tr.meta.transaction_id = t)

/-- The account value written by one `process` step for the
transaction's own client, as a pure function of the local reads (the
client's account, the history entry and the dispute entry at the
transaction's id). -/
def stepAcct (acc : Account) (hist disp : Option Transaction)
    (tr : Transaction) : Account :=
  match tr with
  | .Deposit _ a => acc.deposit a
  | .Withdrawal _ a =>
      if acc.available_funds ≥ a then
        { acc with available_funds := acc.available_funds - a }
      else acc
  | .Dispute m =>
      match hist with
      | some dtr =>
          match disputed_amount dtr m.client_id with
          | some a => acc.hold_funds a
          | none => acc
      | none => acc
  | .Resolve m =>
      match disp with
      | some dtr =>
          match disputed_amount dtr m.client_id with
          | some a => acc.release_funds a
          | none => acc
      | none => acc
  | .Chargeback m =>
      match disp with
      | some dtr =>
          match disputed_amount dtr m.client_id with
          | some a => acc.chargeback a
          | none => acc
      | none => acc

/-- The entry one `process` step adds to `disputed_transactions` (under
that entry's own id), as a pure function of the history read. -/
def stepDisp (hist : Option Transaction) (tr : Transaction) :
    Option Transaction :=
  match tr with
  | .Dispute m =>
      match hist with
      | some dtr =>
          match disputed_amount dtr m.client_id with
          | some _ => some dtr
          | none => none
      | none => none
  | _ => none

/-- The id settled by a transaction, when it is a resolve or chargeback. -/
def settleTarget : Transaction → Option TransactionId
  | .Resolve m => some m.transaction_id
  | .Chargeback m => some m.transaction_id
  | _ => none

/-- The remaining stream contains a resolve or chargeback aimed at `t`. -/
def hasSettleAt (l : List Transaction) (t : TransactionId) : Prop :=
  ∃ tr ∈ l, settleTarget tr = some t

/-- Each transaction id is the target of at most one resolve/chargeback
in the stream. -/
def settleOnce (l : List Transaction) : Prop :=
  l.Pairwise (fun a b => settleTarget a = none ∨ settleTarget a ≠ settleTarget b)

instance settleOnce.decidable (l : List Transaction) : Decidable (settleOnce l) :=
  haveI : DecidableRel (fun a b : Transaction =>
      settleTarget a = none ∨ settleTarget a ≠ settleTarget b) :=
    fun _ _ => inferInstanceAs (Decidable (_ ∨ _))
  inferInstanceAs (Decidable (l.Pairwise
    (fun a b => settleTarget a = none ∨ settleTarget a ≠ settleTarget b)))

/-- A deposit or withdrawal carries a strictly positive amount (always
true of other kinds); the input boundary guarantees this for every
transaction the core sees. -/
def Transaction.posAmount : Transaction → Prop
  | .Deposit _ a => 0 < a
  | .Withdrawal _ a => 0 < a
  | _ => True

instance Transaction.posAmount.decidable :
    (tr : Transaction) → Decidable tr.posAmount
  | .Deposit _ a => inferInstanceAs (Decidable (0 < a))
  | .Withdrawal _ a => inferInstanceAs (Decidable (0 < a))
  | .Dispute _ => inferInstanceAs (Decidable True)
  | .Resolve _ => inferInstanceAs (Decidable True)
  | .Chargeback _ => inferInstanceAs (Decidable True)

/-- Every deposit and withdrawal in the stream has a positive amount. -/
def posAmounts (l : List Transaction) : Prop := ∀ tr ∈ l, tr.posAmount

instance posAmounts.decidable (l : List Transaction) : Decidable (posAmounts l) :=
  inferInstanceAs (Decidable (∀ tr ∈ l, tr.posAmount))

/-- The amount an effective dispute would put on hold at this state
(`none` when the transaction is not a dispute or the dispute is a no-op). -/
def holdAmount (p : Partition) (tr : Transaction) : Option ℚ :=
  match tr with
  | .Dispute m =>
      if (p.acct m.client_id).is_locked then none
      else
        match p.transaction_history m.transaction_id with
        | some dtr => disputed_amount dtr m.client_id
        | none => none
  | _ => none

/-- An optional hold amount fits under the given available balance. -/
def holdOk : Option ℚ → ℚ → Prop
  | some a, v => a ≤ v
  | none, _ => True

instance holdOk.decidable : (o : Option ℚ) → (v : ℚ) → Decidable (holdOk o v)
  | some a, v => inferInstanceAs (Decidable (a ≤ v))
  | none, _ => inferInstanceAs (Decidable True)

/-- Along the whole run, every effective dispute holds an amount that is
still available on the client's account (the spec's stated assumption
for `hold`). -/
def backed : Partition → List Transaction → Prop
  | _, [] => True
  | p, tr :: rest =>
      holdOk (holdAmount p tr) (p.acct tr.meta.client_id).available_funds ∧
        backed (p.process tr) rest

instance backed.decidable :
    (l : List Transaction) → (p : Partition) → Decidable (backed p l)
  | [], _ => Decidable.isTrue trivial
  | tr :: rest, p =>
      haveI := backed.decidable rest (p.process tr)
      inferInstanceAs (Decidable (_ ∧ _))

/-- Inductive invariant for the non-negativity claim: per client, a
multiset of open hold contributions `(id, amount)` accounts for the held
balance; every dispute entry that the remaining stream may still settle
is among them; recorded deposits have positive amounts and are keyed by
their own id; available balances are non-negative. -/
def C2Inv (p : Partition) (rest : List Transaction) : Prop :=
  ∃ M : ClientId → Multiset (TransactionId × ℚ),
    (∀ c, (p.acct c).held_funds = ((M c).map Prod.snd).sum) ∧
    (∀ c q, q ∈ M c → 0 < q.2) ∧
    (∀ t dm a, p.disputed_transactions t = some (.Deposit dm a) →
        hasSettleAt rest t → (t, a) ∈ M dm.client_id) ∧
    (∀ t dm a, p.transaction_history t = some (.Deposit dm a) → 0 < a) ∧
    (∀ t tr, p.transaction_history t = some tr → tr.meta.transaction_id = t) ∧
    (∀ c, 0 ≤ (p.acct c).available_funds)

/-! ### Basic lemmas about the map model and `process` -/

lemma mapInsert_self {α β : Type} [DecidableEq α] (m : α → Option β) (k : α) (v : β) :
    mapInsert m k v k = some v := by
  simp [mapInsert]

lemma mapInsert_ne {α β : Type} [DecidableEq α] (m : α → Option β) (k k' : α) (v : β)
    (h : k' ≠ k) : mapInsert m k v k' = m k' := by
  simp [mapInsert, h]

lemma mapInsert_mapInsert {α β : Type} [DecidableEq α] (m : α → Option β) (k : α) (v w : β) :
    mapInsert (mapInsert m k v) k w = mapInsert m k w := by
  funext k'
  by_cases h : k' = k <;> simp [mapInsert, h]

lemma mapInsert_eq_self {α β : Type} [DecidableEq α] (m : α → Option β) (k : α) (v : β)
    (h : m k = some v) : mapInsert m k v = m := by
  funext k'
  by_cases hk : k' = k <;> simp [mapInsert, hk, h.symm]

lemma Partition.ext' (p q : Partition)
    (h1 : p.transaction_history = q.transaction_history)
    (h2 : p.disputed_transactions = q.disputed_transactions)
    (h3 : p.accounts = q.accounts) : p = q := by
  cases p; cases q; simp_all

/-- A characterization of `disputed_amount` returning a value. -/
lemma disputed_amount_eq_some {tr : Transaction} {c : ClientId} {a : ℚ} :
    disputed_amount tr c = some a ↔ ∃ m, tr = .Deposit m a ∧ m.client_id = c := by
  cases tr with
  | Deposit m b =>
      by_cases h : m.client_id = c
      · simp [disputed_amount, Transaction.meta, h, eq_comm, and_comm]
      · simp only [disputed_amount, Transaction.meta, h, ne_eq, not_false_iff, if_true]
        constructor
        · intro hx; exact absurd hx (by simp)
        · rintro ⟨m', hm', hc⟩
          injection hm' with hm1 hm2
          exact absurd (hm1 ▸ hc) h
  | Withdrawal m b => simp [disputed_amount, Transaction.meta]
  | Dispute m => simp [disputed_amount, Transaction.meta]
  | Resolve m => simp [disputed_amount, Transaction.meta]
  | Chargeback m => simp [disputed_amount, Transaction.meta]

/-- Processing a transaction for a frozen account changes nothing:
the early return fires before any state is written (the
`or_insert_with` re-inserts the very account that is already there). -/
lemma Partition.process_frozen (p : Partition) (tr : Transaction)
    (h : (p.acct tr.meta.client_id).is_locked = true) :
    p.process tr = p := by
  have hacc : p.accounts tr.meta.client_id = some (p.acct tr.meta.client_id) := by
    cases hx : p.accounts tr.meta.client_id with
    | none => simp [Partition.acct, hx, Account.new] at h
    | some a => simp [Partition.acct, hx]
  simp only [Partition.process, Account.is_frozen]
  rw [show (p.accounts tr.meta.client_id).getD Account.new = p.acct tr.meta.client_id from rfl]
  simp only [h, if_true]
  exact Partition.ext' _ _ rfl rfl (mapInsert_eq_self _ _ _ hacc)

/-- Effect of a deposit on an unfrozen account. -/
lemma Partition.process_deposit (p : Partition) (m : Meta) (a : ℚ)
    (h : (p.acct m.client_id).is_locked = false) :
    p.process (.Deposit m a) =
      { transaction_history := mapInsert p.transaction_history m.transaction_id (.Deposit m a),
        disputed_transactions := p.disputed_transactions,
        accounts := mapInsert p.accounts m.client_id ((p.acct m.client_id).deposit a) } := by
  simp only [Partition.process, Transaction.meta, Account.is_frozen]
  rw [show (p.accounts m.client_id).getD Account.new = p.acct m.client_id from rfl]
  simp only [h, Bool.false_eq_true, if_false, mapInsert_mapInsert]

/-- Effect of a withdrawal when funds suffice. -/
lemma Partition.process_withdrawal_ok (p : Partition) (m : Meta) (a : ℚ)
    (h : (p.acct m.client_id).is_locked = false)
    (hge : (p.acct m.client_id).available_funds ≥ a) :
    p.process (.Withdrawal m a) =
      { transaction_history := mapInsert p.transaction_history m.transaction_id (.Withdrawal m a),
        disputed_transactions := p.disputed_transactions,
        accounts := mapInsert p.accounts m.client_id
          { p.acct m.client_id with
              available_funds := (p.acct m.client_id).available_funds - a } } := by
  simp only [Partition.process, Transaction.meta, Account.is_frozen]
  rw [show (p.accounts m.client_id).getD Account.new = p.acct m.client_id from rfl]
  simp only [h, Bool.false_eq_true, if_false, hge, if_true, mapInsert_mapInsert]

/-- Effect of a withdrawal when funds are insufficient: the account value
is unchanged (it is merely re-inserted). -/
lemma Partition.process_withdrawal_insufficient (p : Partition) (m : Meta) (a : ℚ)
    (h : (p.acct m.client_id).is_locked = false)
    (hlt : ¬ (p.acct m.client_id).available_funds ≥ a) :
    p.process (.Withdrawal m a) =
      { transaction_history := mapInsert p.transaction_history m.transaction_id (.Withdrawal m a),
        disputed_transactions := p.disputed_transactions,
        accounts := mapInsert p.accounts m.client_id (p.acct m.client_id) } := by
  simp only [Partition.process, Transaction.meta, Account.is_frozen]
  rw [show (p.accounts m.client_id).getD Account.new = p.acct m.client_id from rfl]
  simp only [h, Bool.false_eq_true, if_false, hlt, mapInsert_mapInsert]

/-- Effect of a dispute that finds a disputable referenced transaction. -/
lemma Partition.process_dispute_hit (p : Partition) (m : Meta) (dtr : Transaction) (a : ℚ)
    (h : (p.acct m.client_id).is_locked = false)
    (hh : p.transaction_history m.transaction_id = some dtr)
    (hda : disputed_amount dtr m.client_id = some a) :
    p.process (.Dispute m) =
      { transaction_history := mapInsert p.transaction_history m.transaction_id (.Dispute m),
        disputed_transactions := mapInsert p.disputed_transactions dtr.meta.transaction_id dtr,
        accounts := mapInsert p.accounts m.client_id ((p.acct m.client_id).hold_funds a) } := by
  simp only [Partition.process, Transaction.meta, Account.is_frozen]
  rw [show (p.accounts m.client_id).getD Account.new = p.acct m.client_id from rfl]
  simp only [h, Bool.false_eq_true, if_false, hh, hda, mapInsert_mapInsert]

/-- Effect of a dispute whose referenced transaction is absent or not
disputable by this client: a no-op apart from account creation and the
history record. -/
lemma Partition.process_dispute_miss (p : Partition) (m : Meta)
    (h : (p.acct m.client_id).is_locked = false)
    (hmiss : ∀ dtr, p.transaction_history m.transaction_id = some dtr →
      disputed_amount dtr m.client_id = none) :
    p.process (.Dispute m) =
      { transaction_history := mapInsert p.transaction_history m.transaction_id (.Dispute m),
        disputed_transactions := p.disputed_transactions,
        accounts := mapInsert p.accounts m.client_id (p.acct m.client_id) } := by
  simp only [Partition.process, Transaction.meta, Account.is_frozen]
  rw [show (p.accounts m.client_id).getD Account.new = p.acct m.client_id from rfl]
  cases hh : p.transaction_history m.transaction_id with
  | none => simp only [h, Bool.false_eq_true, if_false, hh, mapInsert_mapInsert]
  | some dtr =>
      simp only [h, Bool.false_eq_true, if_false, hh, hmiss dtr hh, mapInsert_mapInsert]

/-- Effect of a resolve that finds an open dispute for this client. -/
lemma Partition.process_resolve_hit (p : Partition) (m : Meta) (dtr : Transaction) (a : ℚ)
    (h : (p.acct m.client_id).is_locked = false)
    (hd : p.disputed_transactions m.transaction_id = some dtr)
    (hda : disputed_amount dtr m.client_id = some a) :
    p.process (.Resolve m) =
      { transaction_history := mapInsert p.transaction_history m.transaction_id (.Resolve m),
        disputed_transactions := p.disputed_transactions,
        accounts := mapInsert p.accounts m.client_id ((p.acct m.client_id).release_funds a) } := by
  simp only [Partition.process, Transaction.meta, Account.is_frozen]
  rw [show (p.accounts m.client_id).getD Account.new = p.acct m.client_id from rfl]
  simp only [h, Bool.false_eq_true, if_false, hd, hda, mapInsert_mapInsert]

/-- Effect of a resolve with no applicable open dispute. -/
lemma Partition.process_resolve_miss (p : Partition) (m : Meta)
    (h : (p.acct m.client_id).is_locked = false)
    (hmiss : ∀ dtr, p.disputed_transactions m.transaction_id = some dtr →
      disputed_amount dtr m.client_id = none) :
    p.process (.Resolve m) =
      { transaction_history := mapInsert p.transaction_history m.transaction_id (.Resolve m),
        disputed_transactions := p.disputed_transactions,
        accounts := mapInsert p.accounts m.client_id (p.acct m.client_id) } := by
  simp only [Partition.process, Transaction.meta, Account.is_frozen]
  rw [show (p.accounts m.client_id).getD Account.new = p.acct m.client_id from rfl]
  cases hd : p.disputed_transactions m.transaction_id with
  | none => simp only [h, Bool.false_eq_true, if_false, hd, mapInsert_mapInsert]
  | some dtr =>
      simp only [h, Bool.false_eq_true, if_false, hd, hmiss dtr hd, mapInsert_mapInsert]

/-- Effect of a chargeback that finds an open dispute for this client. -/
lemma Partition.process_chargeback_hit (p : Partition) (m : Meta) (dtr : Transaction) (a : ℚ)
    (h : (p.acct m.client_id).is_locked = false)
    (hd : p.disputed_transactions m.transaction_id = some dtr)
    (hda : disputed_amount dtr m.client_id = some a) :
    p.process (.Chargeback m) =
      { transaction_history := mapInsert p.transaction_history m.transaction_id (.Chargeback m),
        disputed_transactions := p.disputed_transactions,
        accounts := mapInsert p.accounts m.client_id ((p.acct m.client_id).chargeback a) } := by
  simp only [Partition.process, Transaction.meta, Account.is_frozen]
  rw [show (p.accounts m.client_id).getD Account.new = p.acct m.client_id from rfl]
  simp only [h, Bool.false_eq_true, if_false, hd, hda, mapInsert_mapInsert]

/-- Effect of a chargeback with no applicable open dispute. -/
lemma Partition.process_chargeback_miss (p : Partition) (m : Meta)
    (h : (p.acct m.client_id).is_locked = false)
    (hmiss : ∀ dtr, p.disputed_transactions m.transaction_id = some dtr →
      disputed_amount dtr m.client_id = none) :
    p.process (.Chargeback m) =
      { transaction_history := mapInsert p.transaction_history m.transaction_id (.Chargeback m),
        disputed_transactions := p.disputed_transactions,
        accounts := mapInsert p.accounts m.client_id (p.acct m.client_id) } := by
  simp only [Partition.process, Transaction.meta, Account.is_frozen]
  rw [show (p.accounts m.client_id).getD Account.new = p.acct m.client_id from rfl]
  cases hd : p.disputed_transactions m.transaction_id with
  | none => simp only [h, Bool.false_eq_true, if_false, hd, mapInsert_mapInsert]
  | some dtr =>
      simp only [h, Bool.false_eq_true, if_false, hd, hmiss dtr hd, mapInsert_mapInsert]

/-- Every branch of `process` writes the accounts map only at the key of
the transaction's own client. -/
lemma Partition.process_accounts_shape (p : Partition) (tr : Transaction) :
    ∃ acc, (p.process tr).accounts =
      mapInsert p.accounts tr.meta.client_id acc := by
  by_cases hl : (p.acct tr.meta.client_id).is_locked = true
  · refine ⟨p.acct tr.meta.client_id, ?_⟩
    rw [Partition.process_frozen p tr hl]
    have hacc : p.accounts tr.meta.client_id = some (p.acct tr.meta.client_id) := by
      cases hx : p.accounts tr.meta.client_id with
      | none => simp [Partition.acct, hx, Account.new] at hl
      | some a => simp [Partition.acct, hx]
    exact (mapInsert_eq_self _ _ _ hacc).symm
  · rw [Bool.not_eq_true] at hl
    cases tr with
    | Deposit m a =>
        rw [Partition.process_deposit p m a hl]; exact ⟨_, rfl⟩
    | Withdrawal m a =>
        by_cases hge : (p.acct m.client_id).available_funds ≥ a
        · rw [Partition.process_withdrawal_ok p m a hl hge]; exact ⟨_, rfl⟩
        · rw [Partition.process_withdrawal_insufficient p m a hl hge]; exact ⟨_, rfl⟩
    | Dispute m =>
        cases hh : p.transaction_history m.transaction_id with
        | none =>
            rw [Partition.process_dispute_miss p m hl (fun dtr hdtr => by
              rw [hh] at hdtr; exact absurd hdtr (by simp))]
            exact ⟨_, rfl⟩
        | some dtr =>
            cases hda : disputed_amount dtr m.client_id with
            | none =>
                rw [Partition.process_dispute_miss p m hl (fun dtr' hdtr' => by
                  rw [hh] at hdtr'; injection hdtr' with he; rw [← he]; exact hda)]
                exact ⟨_, rfl⟩
            | some a =>
                rw [Partition.process_dispute_hit p m dtr a hl hh hda]; exact ⟨_, rfl⟩
    | Resolve m =>
        cases hd : p.disputed_transactions m.transaction_id with
        | none =>
            rw [Partition.process_resolve_miss p m hl (fun dtr hdtr => by
              rw [hd] at hdtr; exact absurd hdtr (by simp))]
            exact ⟨_, rfl⟩
        | some dtr =>
            cases hda : disputed_amount dtr m.client_id with
            | none =>
                rw [Partition.process_resolve_miss p m hl (fun dtr' hdtr' => by
                  rw [hd] at hdtr'; injection hdtr' with he; rw [← he]; exact hda)]
                exact ⟨_, rfl⟩
            | some a =>
                rw [Partition.process_resolve_hit p m dtr a hl hd hda]; exact ⟨_, rfl⟩
    | Chargeback m =>
        cases hd : p.disputed_transactions m.transaction_id with
        | none =>
            rw [Partition.process_chargeback_miss p m hl (fun dtr hdtr => by
              rw [hd] at hdtr; exact absurd hdtr (by simp))]
            exact ⟨_, rfl⟩
        | some dtr =>
            cases hda : disputed_amount dtr m.client_id with
            | none =>
                rw [Partition.process_chargeback_miss p m hl (fun dtr' hdtr' => by
                  rw [hd] at hdtr'; injection hdtr' with he; rw [← he]; exact hda)]
                exact ⟨_, rfl⟩
            | some a =>
                rw [Partition.process_chargeback_hit p m dtr a hl hd hda]; exact ⟨_, rfl⟩

/-- Accounts of other clients are untouched by `process`. -/
lemma Partition.process_accounts_ne (p : Partition) (tr : Transaction) (c : ClientId)
    (h : c ≠ tr.meta.client_id) :
    (p.process tr).accounts c = p.accounts c := by
  obtain ⟨acc, hacc⟩ := Partition.process_accounts_shape p tr
  rw [hacc, mapInsert_ne _ _ _ _ h]

/-- After `process`, the transaction's client always has an entry in the
accounts map. -/
lemma Partition.process_accounts_self_isSome (p : Partition) (tr : Transaction) :
    ((p.process tr).accounts tr.meta.client_id).isSome := by
  obtain ⟨acc, hacc⟩ := Partition.process_accounts_shape p tr
  rw [hacc, mapInsert_self]
  rfl

lemma Partition.process_acct_ne (p : Partition) (tr : Transaction) (c : ClientId)
    (h : c ≠ tr.meta.client_id) :
    (p.process tr).acct c = p.acct c := by
  unfold Partition.acct
  rw [Partition.process_accounts_ne p tr c h]

/-- The history after `process`: nothing is recorded for a frozen
account, otherwise the transaction is recorded under its own id. -/
lemma Partition.process_history (p : Partition) (tr : Transaction) :
    (p.process tr).transaction_history =
      if (p.acct tr.meta.client_id).is_locked then p.transaction_history
      else mapInsert p.transaction_history tr.meta.transaction_id tr := by
  by_cases hl : (p.acct tr.meta.client_id).is_locked = true
  · rw [Partition.process_frozen p tr hl, hl]
    simp only [if_true]
  · rw [Bool.not_eq_true] at hl
    rw [hl]
    simp only [Bool.false_eq_true, if_false]
    cases tr with
    | Deposit m a => rw [Partition.process_deposit p m a hl]; rfl
    | Withdrawal m a =>
        by_cases hge : (p.acct m.client_id).available_funds ≥ a
        · rw [Partition.process_withdrawal_ok p m a hl hge]; rfl
        · rw [Partition.process_withdrawal_insufficient p m a hl hge]; rfl
    | Dispute m =>
        cases hh : p.transaction_history m.transaction_id with
        | none =>
            rw [Partition.process_dispute_miss p m hl (fun dtr hdtr => by
              rw [hh] at hdtr; exact absurd hdtr (by simp))]
            rfl
        | some dtr =>
            cases hda : disputed_amount dtr m.client_id with
            | none =>
                rw [Partition.process_dispute_miss p m hl (fun dtr' hdtr' => by
                  rw [hh] at hdtr'; injection hdtr' with he; rw [← he]; exact hda)]
                rfl
            | some a => rw [Partition.process_dispute_hit p m dtr a hl hh hda]; rfl
    | Resolve m =>
        cases hd : p.disputed_transactions m.transaction_id with
        | none =>
            rw [Partition.process_resolve_miss p m hl (fun dtr hdtr => by
              rw [hd] at hdtr; exact absurd hdtr (by simp))]
            rfl
        | some dtr =>
            cases hda : disputed_amount dtr m.client_id with
            | none =>
                rw [Partition.process_resolve_miss p m hl (fun dtr' hdtr' => by
                  rw [hd] at hdtr'; injection hdtr' with he; rw [← he]; exact hda)]
                rfl
            | some a => rw [Partition.process_resolve_hit p m dtr a hl hd hda]; rfl
    | Chargeback m =>
        cases hd : p.disputed_transactions m.transaction_id with
        | none =>
            rw [Partition.process_chargeback_miss p m hl (fun dtr hdtr => by
              rw [hd] at hdtr; exact absurd hdtr (by simp))]
            rfl
        | some dtr =>
            cases hda : disputed_amount dtr m.client_id with
            | none =>
                rw [Partition.process_chargeback_miss p m hl (fun dtr' hdtr' => by
                  rw [hd] at hdtr'; injection hdtr' with he; rw [← he]; exact hda)]
                rfl
            | some a => rw [Partition.process_chargeback_hit p m dtr a hl hd hda]; rfl

/-- Resolve and chargeback transactions never modify the open-disputes
map, in any state. -/
lemma Partition.process_settle_disputed (p : Partition) (m : Meta)
    (tr : Transaction) (h : tr = .Resolve m ∨ tr = .Chargeback m) :
    (p.process tr).disputed_transactions = p.disputed_transactions := by
  by_cases hl : (p.acct tr.meta.client_id).is_locked = true
  · rw [Partition.process_frozen p tr hl]
  · rw [Bool.not_eq_true] at hl
    rcases h with h | h <;> subst h
    · cases hd : p.disputed_transactions m.transaction_id with
      | none =>
          rw [Partition.process_resolve_miss p m hl (fun dtr hdtr => by
            rw [hd] at hdtr; exact absurd hdtr (by simp))]
      | some dtr =>
          cases hda : disputed_amount dtr m.client_id with
          | none =>
              rw [Partition.process_resolve_miss p m hl (fun dtr' hdtr' => by
                rw [hd] at hdtr'; injection hdtr' with he; rw [← he]; exact hda)]
          | some a => rw [Partition.process_resolve_hit p m dtr a hl hd hda]
    · cases hd : p.disputed_transactions m.transaction_id with
      | none =>
          rw [Partition.process_chargeback_miss p m hl (fun dtr hdtr => by
            rw [hd] at hdtr; exact absurd hdtr (by simp))]
      | some dtr =>
          cases hda : disputed_amount dtr m.client_id with
          | none =>
              rw [Partition.process_chargeback_miss p m hl (fun dtr' hdtr' => by
                rw [hd] at hdtr'; injection hdtr' with he; rw [← he]; exact hda)]
          | some a => rw [Partition.process_chargeback_hit p m dtr a hl hd hda]

/-- `processAll` over an appended stream. -/
lemma Partition.processAll_append (p : Partition) (l1 l2 : List Transaction) :
    Partition.processAll p (l1 ++ l2) =
      Partition.processAll (Partition.processAll p l1) l2 :=
  List.foldl_append _ _ _ _

lemma Partition.processAll_cons (p : Partition) (tr : Transaction) (l : List Transaction) :
    Partition.processAll p (tr :: l) = Partition.processAll (p.process tr) l := rfl

lemma Partition.processAll_nil (p : Partition) : Partition.processAll p [] = p := rfl

/-- An account entry, once present, survives any processing step. -/
lemma Partition.process_accounts_isSome_mono (p : Partition) (tr : Transaction)
    (c : ClientId) (h : (p.accounts c).isSome) :
    ((p.process tr).accounts c).isSome := by
  obtain ⟨acc, hacc⟩ := Partition.process_accounts_shape p tr
  rw [hacc]
  by_cases hc : c = tr.meta.client_id
  · subst hc; rw [mapInsert_self]; rfl
  · rw [mapInsert_ne _ _ _ _ hc]; exact h

lemma Partition.processAll_accounts_isSome_mono (l : List Transaction)
    (p : Partition) (c : ClientId) (h : (p.accounts c).isSome) :
    ((Partition.processAll p l).accounts c).isSome := by
  induction l generalizing p with
  | nil => exact h
  | cons tr rest ih =>
      rw [Partition.processAll_cons]
      exact ih _ (Partition.process_accounts_isSome_mono p tr c h)

/-- Reading the just-inserted account back out of the map. -/
lemma Partition.acct_insert_self (p q : Partition) (c : ClientId) (v : Account)
    (h : q.accounts = mapInsert p.accounts c v) : q.acct c = v := by
  unfold Partition.acct
  rw [h, mapInsert_self]
  rfl

/-- A single step never changes the account entry of a locked account. -/
lemma Partition.process_locked_entry (p : Partition) (c : ClientId) (acc : Account)
    (hacc : p.accounts c = some acc) (hlock : acc.is_locked = true)
    (tr : Transaction) : (p.process tr).accounts c = some acc := by
  by_cases hc : c = tr.meta.client_id
  · have hfl : (p.acct tr.meta.client_id).is_locked = true := by
      rw [Partition.acct, ← hc, hacc]; exact hlock
    rw [Partition.process_frozen p tr hfl]; exact hacc
  · rw [Partition.process_accounts_ne p tr c hc]; exact hacc

/-- Master description of an unfrozen `process` step: the history gains
the transaction under its own id, the client's account becomes a pure
function of the local reads, and the disputed set gains at most the
entry computed from the history read. -/
lemma Partition.process_unfrozen_eq (p : Partition) (tr : Transaction)
    (hl : (p.acct tr.meta.client_id).is_locked = false) :
    p.process tr =
      { transaction_history :=
          mapInsert p.transaction_history tr.meta.transaction_id tr,
        disputed_transactions :=
          match stepDisp (p.transaction_history tr.meta.transaction_id) tr with
          | some dtr => mapInsert p.disputed_transactions dtr.meta.transaction_id dtr
          | none => p.disputed_transactions,
        accounts := mapInsert p.accounts tr.meta.client_id
          (stepAcct (p.acct tr.meta.client_id)
            (p.transaction_history tr.meta.transaction_id)
            (p.disputed_transactions tr.meta.transaction_id) tr) } := by
  cases tr with
  | Deposit m a =>
      rw [Partition.process_deposit p m a hl]
      rfl
  | Withdrawal m a =>
      by_cases hge : (p.acct m.client_id).available_funds ≥ a
      · rw [Partition.process_withdrawal_ok p m a hl hge]
        simp only [stepDisp, stepAcct, Transaction.meta, hge, if_true]
      · rw [Partition.process_withdrawal_insufficient p m a hl hge]
        simp only [stepDisp, stepAcct, Transaction.meta, hge, if_false]
  | Dispute m =>
      cases hh : p.transaction_history m.transaction_id with
      | none =>
          rw [Partition.process_dispute_miss p m hl (fun dtr hdtr => by
            rw [hh] at hdtr; exact absurd hdtr (by simp))]
          simp only [stepDisp, stepAcct, Transaction.meta]
          rw [hh]
      | some dtr =>
          cases hda : disputed_amount dtr m.client_id with
          | none =>
              rw [Partition.process_dispute_miss p m hl (fun dtr' hdtr' => by
                rw [hh] at hdtr'; injection hdtr' with he; rw [← he]; exact hda)]
              simp only [stepDisp, stepAcct, Transaction.meta]
              rw [hh]
              simp only [hda]
          | some a =>
              rw [Partition.process_dispute_hit p m dtr a hl hh hda]
              simp only [stepDisp, stepAcct, Transaction.meta]
              rw [hh]
              simp only [hda]
  | Resolve m =>
      cases hd : p.disputed_transactions m.transaction_id with
      | none =>
          rw [Partition.process_resolve_miss p m hl (fun dtr hdtr => by
            rw [hd] at hdtr; exact absurd hdtr (by simp))]
          simp only [stepDisp, stepAcct, Transaction.meta]
          rw [hd]
      | some dtr =>
          cases hda : disputed_amount dtr m.client_id with
          | none =>
              rw [Partition.process_resolve_miss p m hl (fun dtr' hdtr' => by
                rw [hd] at hdtr'; injection hdtr' with he; rw [← he]; exact hda)]
              simp only [stepDisp, stepAcct, Transaction.meta]
              rw [hd]
              simp only [hda]
          | some a =>
              rw [Partition.process_resolve_hit p m dtr a hl hd hda]
              simp only [stepDisp, stepAcct, Transaction.meta]
              rw [hd]
              simp only [hda]
  | Chargeback m =>
      cases hd : p.disputed_transactions m.transaction_id with
      | none =>
          rw [Partition.process_chargeback_miss p m hl (fun dtr hdtr => by
            rw [hd] at hdtr; exact absurd hdtr (by simp))]
          simp only [stepDisp, stepAcct, Transaction.meta]
          rw [hd]
      | some dtr =>
          cases hda : disputed_amount dtr m.client_id with
          | none =>
              rw [Partition.process_chargeback_miss p m hl (fun dtr' hdtr' => by
                rw [hd] at hdtr'; injection hdtr' with he; rw [← he]; exact hda)]
              simp only [stepDisp, stepAcct, Transaction.meta]
              rw [hd]
              simp only [hda]
          | some a =>
              rw [Partition.process_chargeback_hit p m dtr a hl hd hda]
              simp only [stepDisp, stepAcct, Transaction.meta]
              rw [hd]
              simp only [hda]

/-- `stepDisp` only yields the entry it read from the history. -/
lemma stepDisp_some (hist : Option Transaction) (tr : Transaction)
    (dtr : Transaction) (h : stepDisp hist tr = some dtr) : hist = some dtr := by
  cases tr with
  | Dispute m =>
      cases hist with
      | none => exact absurd h (by simp [stepDisp])
      | some dtr' =>
          cases hda : disputed_amount dtr' m.client_id with
          | none => rw [stepDisp, hda] at h; exact absurd h (by simp)
          | some a =>
              rw [stepDisp, hda] at h
              injection h with he
              rw [he]
  | Deposit m a => exact absurd h (by simp [stepDisp])
  | Withdrawal m a => exact absurd h (by simp [stepDisp])
  | Resolve m => exact absurd h (by simp [stepDisp])
  | Chargeback m => exact absurd h (by simp [stepDisp])

lemma runW_cons (route : ClientId → ℕ) (W : ℕ → Partition) (tr : Transaction)
    (l : List Transaction) :
    runW route W (tr :: l) = runW route (stepW route W tr) l := rfl

/-- Each worker's state after submitting the whole stream equals the
sequential processing of its shard subsequence. -/
lemma runW_shard (route : ClientId → ℕ) (l : List Transaction) :
    ∀ (W : ℕ → Partition) (w : ℕ),
      runW route W l w = Partition.processAll (W w) (shardStream route w l) := by
  induction l with
  | nil => intro W w; rfl
  | cons tr rest ih =>
      intro W w
      rw [runW_cons, ih]
      by_cases hw : route tr.meta.client_id = w
      · have h1 : shardStream route w (tr :: rest) = tr :: shardStream route w rest := by
          simp [shardStream, List.filter_cons, hw]
        have h2 : stepW route W tr w = (W w).process tr := by
          unfold stepW; rw [if_pos hw.symm]
        rw [h1, Partition.processAll_cons, h2]
      · have h1 : shardStream route w (tr :: rest) = shardStream route w rest := by
          simp [shardStream, List.filter_cons, hw]
        have h2 : stepW route W tr w = W w := by
          unfold stepW; rw [if_neg (fun h => hw h.symm)]
        rw [h1, h2]

lemma workerFinal_eq_runW (route : ClientId → ℕ) (w : ℕ) (l : List Transaction) :
    workerFinal route w l = runW route (fun _ => Partition.new) l w := by
  rw [runW_shard]
  rfl

/-- The simulation relation holds initially. -/
lemma Rel.base (ow : TransactionId → ClientId) (route : ClientId → ℕ) :
    Rel ow route Partition.new (fun _ => Partition.new) :=
  ⟨fun _ => rfl, fun _ _ _ => rfl, fun _ => rfl, fun _ _ _ => rfl,
   fun _ => rfl, fun _ _ _ => rfl, fun _ _ h => Option.noConfusion h⟩

/-- The simulation relation is preserved by one submission, provided the
transaction's id is owned by its own client. -/
lemma Rel.submit_step (ow : TransactionId → ClientId) (route : ClientId → ℕ)
    (S : Partition) (W : ℕ → Partition) (tr : Transaction)
    (hRel : Rel ow route S W)
    (how : tr.meta.client_id = ow tr.meta.transaction_id) :
    Rel ow route (S.process tr) (stepW route W tr) := by
  obtain ⟨A1, A2, H1, H2, D1, D2, K⟩ := hRel
  have hacc : (W (route tr.meta.client_id)).accounts tr.meta.client_id =
      S.accounts tr.meta.client_id := A1 _
  have hacct : (W (route tr.meta.client_id)).acct tr.meta.client_id =
      S.acct tr.meta.client_id := by
    unfold Partition.acct; rw [hacc]
  have hrt : route (ow tr.meta.transaction_id) = route tr.meta.client_id := by
    rw [← how]
  have hhist : (W (route tr.meta.client_id)).transaction_history
      tr.meta.transaction_id = S.transaction_history tr.meta.transaction_id := by
    have h := H1 tr.meta.transaction_id; rw [hrt] at h; exact h
  have hdisp : (W (route tr.meta.client_id)).disputed_transactions
      tr.meta.transaction_id = S.disputed_transactions tr.meta.transaction_id := by
    have h := D1 tr.meta.transaction_id; rw [hrt] at h; exact h
  by_cases hl : (S.acct tr.meta.client_id).is_locked = true
  · have hS' : S.process tr = S := Partition.process_frozen S tr hl
    have hW : stepW route W tr = W := by
      funext w
      unfold stepW
      by_cases hw : w = route tr.meta.client_id
      · rw [if_pos hw, hw,
            Partition.process_frozen _ _ (by rw [hacct]; exact hl)]
      · rw [if_neg hw]
    rw [hS', hW]
    exact ⟨A1, A2, H1, H2, D1, D2, K⟩
  · rw [Bool.not_eq_true] at hl
    have hlW : ((W (route tr.meta.client_id)).acct tr.meta.client_id).is_locked =
        false := by rw [hacct]; exact hl
    have hS' := Partition.process_unfrozen_eq S tr hl
    have hW' := Partition.process_unfrozen_eq (W (route tr.meta.client_id)) tr hlW
    rw [hhist, hdisp, hacct] at hW'
    have hSacc : (S.process tr).accounts =
        mapInsert S.accounts tr.meta.client_id
          (stepAcct (S.acct tr.meta.client_id)
            (S.transaction_history tr.meta.transaction_id)
            (S.disputed_transactions tr.meta.transaction_id) tr) := by rw [hS']
    have hWacc : ((W (route tr.meta.client_id)).process tr).accounts =
        mapInsert (W (route tr.meta.client_id)).accounts tr.meta.client_id
          (stepAcct (S.acct tr.meta.client_id)
            (S.transaction_history tr.meta.transaction_id)
            (S.disputed_transactions tr.meta.transaction_id) tr) := by rw [hW']
    have hShist : (S.process tr).transaction_history =
        mapInsert S.transaction_history tr.meta.transaction_id tr := by rw [hS']
    have hWhist : ((W (route tr.meta.client_id)).process tr).transaction_history =
        mapInsert (W (route tr.meta.client_id)).transaction_history
          tr.meta.transaction_id tr := by rw [hW']
    refine ⟨?_, ?_, ?_, ?_, ?_, ?_, ?_⟩
    · -- accounts agree at each client's own worker
      intro c₀
      rw [hSacc]
      by_cases hw : route c₀ = route tr.meta.client_id
      · rw [show stepW route W tr (route c₀) = (W (route c₀)).process tr from
          if_pos hw, hw, hWacc]
        by_cases hcc : c₀ = tr.meta.client_id
        · rw [hcc, mapInsert_self, mapInsert_self]
        · rw [mapInsert_ne _ _ _ _ hcc, mapInsert_ne _ _ _ _ hcc]
          have h := A1 c₀; rw [hw] at h; exact h
      · rw [show stepW route W tr (route c₀) = W (route c₀) from if_neg hw]
        have hcc : c₀ ≠ tr.meta.client_id := fun h => hw (by rw [h])
        rw [mapInsert_ne _ _ _ _ hcc]
        exact A1 c₀
    · -- foreign workers hold no account entry
      intro w c₀ hwc
      by_cases hw : w = route tr.meta.client_id
      · rw [show stepW route W tr w = (W w).process tr from if_pos hw, hw, hWacc]
        have hcc : c₀ ≠ tr.meta.client_id := fun h => hwc (by rw [h, ← hw])
        rw [mapInsert_ne _ _ _ _ hcc, ← hw]
        exact A2 w c₀ hwc
      · rw [show stepW route W tr w = W w from if_neg hw]
        exact A2 w c₀ hwc
    · -- history agrees at the owner's worker
      intro t₀
      rw [hShist]
      by_cases hw : route (ow t₀) = route tr.meta.client_id
      · rw [show stepW route W tr (route (ow t₀)) = (W (route (ow t₀))).process tr
          from if_pos hw, hw, hWhist]
        by_cases htt : t₀ = tr.meta.transaction_id
        · rw [htt, mapInsert_self, mapInsert_self]
        · rw [mapInsert_ne _ _ _ _ htt, mapInsert_ne _ _ _ _ htt]
          have h := H1 t₀; rw [hw] at h; exact h
      · rw [show stepW route W tr (route (ow t₀)) = W (route (ow t₀)) from
          if_neg hw]
        have htt : t₀ ≠ tr.meta.transaction_id := fun h => hw (by rw [h, ← how])
        rw [mapInsert_ne _ _ _ _ htt]
        exact H1 t₀
    · -- foreign workers hold no history entry
      intro w t₀ hwt
      by_cases hw : w = route tr.meta.client_id
      · rw [show stepW route W tr w = (W w).process tr from if_pos hw, hw, hWhist]
        have htt : t₀ ≠ tr.meta.transaction_id := by
          intro h; exact hwt (by rw [h, ← how]; exact hw)
        rw [mapInsert_ne _ _ _ _ htt, ← hw]
        exact H2 w t₀ hwt
      · rw [show stepW route W tr w = W w from if_neg hw]
        exact H2 w t₀ hwt
    · -- disputed set agrees at the owner's worker
      intro t₀
      cases he : stepDisp (S.transaction_history tr.meta.transaction_id) tr with
      | none =>
          have hSd : (S.process tr).disputed_transactions =
              S.disputed_transactions := by rw [hS', he]
          have hWd : ((W (route tr.meta.client_id)).process tr).disputed_transactions =
              (W (route tr.meta.client_id)).disputed_transactions := by rw [hW', he]
          rw [hSd]
          by_cases hw : route (ow t₀) = route tr.meta.client_id
          · rw [show stepW route W tr (route (ow t₀)) =
              (W (route (ow t₀))).process tr from if_pos hw, hw, hWd]
            have h := D1 t₀; rw [hw] at h; exact h
          · rw [show stepW route W tr (route (ow t₀)) = W (route (ow t₀)) from
              if_neg hw]
            exact D1 t₀
      | some dtr =>
          have hkey : dtr.meta.transaction_id = tr.meta.transaction_id :=
            K _ dtr (stepDisp_some _ _ _ he)
          have hSd : (S.process tr).disputed_transactions =
              mapInsert S.disputed_transactions tr.meta.transaction_id dtr := by
            rw [hS']; simp only [he]; rw [hkey]
          have hWd : ((W (route tr.meta.client_id)).process tr).disputed_transactions =
              mapInsert (W (route tr.meta.client_id)).disputed_transactions
                tr.meta.transaction_id dtr := by
            rw [hW']; simp only [he]; rw [hkey]
          rw [hSd]
          by_cases hw : route (ow t₀) = route tr.meta.client_id
          · rw [show stepW route W tr (route (ow t₀)) =
              (W (route (ow t₀))).process tr from if_pos hw, hw, hWd]
            by_cases htt : t₀ = tr.meta.transaction_id
            · rw [htt, mapInsert_self, mapInsert_self]
            · rw [mapInsert_ne _ _ _ _ htt, mapInsert_ne _ _ _ _ htt]
              have h := D1 t₀; rw [hw] at h; exact h
          · rw [show stepW route W tr (route (ow t₀)) = W (route (ow t₀)) from
              if_neg hw]
            have htt : t₀ ≠ tr.meta.transaction_id := fun h => hw (by rw [h, ← how])
            rw [mapInsert_ne _ _ _ _ htt]
            exact D1 t₀
    · -- foreign workers hold no dispute entry
      intro w t₀ hwt
      cases he : stepDisp (S.transaction_history tr.meta.transaction_id) tr with
      | none =>
          have hWd : ((W (route tr.meta.client_id)).process tr).disputed_transactions =
              (W (route tr.meta.client_id)).disputed_transactions := by rw [hW', he]
          by_cases hw : w = route tr.meta.client_id
          · rw [show stepW route W tr w = (W w).process tr from if_pos hw, hw, hWd,
              ← hw]
            exact D2 w t₀ hwt
          · rw [show stepW route W tr w = W w from if_neg hw]
            exact D2 w t₀ hwt
      | some dtr =>
          have hkey : dtr.meta.transaction_id = tr.meta.transaction_id :=
            K _ dtr (stepDisp_some _ _ _ he)
          have hWd : ((W (route tr.meta.client_id)).process tr).disputed_transactions =
              mapInsert (W (route tr.meta.client_id)).disputed_transactions
                tr.meta.transaction_id dtr := by
            rw [hW']; simp only [he]; rw [hkey]
          by_cases hw : w = route tr.meta.client_id
          · rw [show stepW route W tr w = (W w).process tr from if_pos hw, hw, hWd]
            have htt : t₀ ≠ tr.meta.transaction_id := by
              intro h; exact hwt (by rw [h, ← how]; exact hw)
            rw [mapInsert_ne _ _ _ _ htt, ← hw]
            exact D2 w t₀ hwt
          · rw [show stepW route W tr w = W w from if_neg hw]
            exact D2 w t₀ hwt
    · -- history keys are the entries' own ids
      intro t₀ tr₀ h₀
      rw [hShist] at h₀
      by_cases htt : t₀ = tr.meta.transaction_id
      · rw [htt, mapInsert_self] at h₀
        injection h₀ with he
        rw [← he, htt]
      · rw [mapInsert_ne _ _ _ _ htt] at h₀
        exact K t₀ tr₀ h₀

/-- The simulation relation is preserved by submitting a whole stream of
owner-coherent transactions. -/
lemma Rel.submit_all (ow : TransactionId → ClientId) (route : ClientId → ℕ) :
    ∀ (l : List Transaction) (S : Partition) (W : ℕ → Partition),
      Rel ow route S W →
      (∀ tr ∈ l, tr.meta.client_id = ow tr.meta.transaction_id) →
      Rel ow route (S.processAll l) (runW route W l) := by
  intro l
  induction l with
  | nil => intro S W h _; exact h
  | cons tr rest ih =>
      intro S W h hcoh
      rw [Partition.processAll_cons, runW_cons]
      exact ih _ _ (Rel.submit_step ow route S W tr h (hcoh tr (by simp)))
        (fun tr' htr' => hcoh tr' (by simp [htr']))

/-- With no transaction id shared between two clients, the first
transaction carrying an id determines its owner, and every transaction's
client is that owner. -/
lemma ownerOf_spec (l : List Transaction)
    (huniq : ∀ tr1 ∈ l, ∀ tr2 ∈ l,
      tr1.meta.transaction_id = tr2.meta.transaction_id →
      tr1.meta.client_id = tr2.meta.client_id) :
    ∀ tr ∈ l, tr.meta.client_id = ownerOf l tr.meta.transaction_id := by
  intro tr htr
  unfold ownerOf
  cases hf : l.find? (fun tr' => tr'.meta.transaction_id == tr.meta.transaction_id) with
  | none =>
      exfalso
      have := List.find?_eq_none.mp hf tr htr
      simp at this
  | some tr' =>
      have h1 : tr' ∈ l := List.mem_of_find?_eq_some hf
      have h2 := List.find?_some hf
      have h3 : tr'.meta.transaction_id = tr.meta.transaction_id := by
        simpa using h2
      have h4 := huniq tr' h1 tr htr h3
      simp [h4]

lemma hasSettleAt_tail {rest : List Transaction} {tr : Transaction}
    {t : TransactionId} (h : hasSettleAt rest t) : hasSettleAt (tr :: rest) t := by
  obtain ⟨tr', htr', ht'⟩ := h
  exact ⟨tr', by simp [htr'], ht'⟩

lemma hasSettleAt_self {rest : List Transaction} {tr : Transaction}
    {t : TransactionId} (h : settleTarget tr = some t) :
    hasSettleAt (tr :: rest) t :=
  ⟨tr, by simp, h⟩

lemma settleOnce_tail {rest : List Transaction} {tr : Transaction}
    (h : settleOnce (tr :: rest)) : settleOnce rest :=
  List.Pairwise.of_cons h

lemma settleOnce_head {rest : List Transaction} {tr : Transaction}
    {t : TransactionId} (h : settleOnce (tr :: rest))
    (ht : settleTarget tr = some t) : ¬ hasSettleAt rest t := by
  rintro ⟨tr', htr', ht'⟩
  rcases (List.pairwise_cons.mp h).1 tr' htr' with h0 | h0
  · rw [ht] at h0; exact Option.noConfusion h0
  · rw [ht, ht'] at h0; exact h0 rfl

/-- Positivity of recorded deposit amounts survives a history insert of
a positive-amount transaction. -/
lemma mapInsert_histPos (h : TransactionId → Option Transaction)
    (tr : Transaction) (hpos : tr.posAmount)
    (hh : ∀ t dm a, h t = some (.Deposit dm a) → 0 < a) :
    ∀ t dm a, mapInsert h tr.meta.transaction_id tr t = some (.Deposit dm a) →
      0 < a := by
  intro t dm a ht
  by_cases htt : t = tr.meta.transaction_id
  · rw [htt, mapInsert_self] at ht
    injection ht with he
    rw [he] at hpos
    exact hpos
  · rw [mapInsert_ne _ _ _ _ htt] at ht
    exact hh t dm a ht

/-- History entries stay keyed by their own id across an insert. -/
lemma mapInsert_histKey (h : TransactionId → Option Transaction)
    (tr : Transaction)
    (hh : ∀ t tr0, h t = some tr0 → tr0.meta.transaction_id = t) :
    ∀ t tr0, mapInsert h tr.meta.transaction_id tr t = some tr0 →
      tr0.meta.transaction_id = t := by
  intro t tr0 ht
  by_cases htt : t = tr.meta.transaction_id
  · rw [htt, mapInsert_self] at ht
    injection ht with he
    rw [← he, htt]
  · rw [mapInsert_ne _ _ _ _ htt] at ht
    exact hh t tr0 ht

lemma backed_of_append (l1 l2 : List Transaction) :
    ∀ p : Partition, backed p (l1 ++ l2) → backed p l1 := by
  induction l1 with
  | nil => intro p _; trivial
  | cons tr rest ih => intro p h; exact ⟨h.1, ih _ h.2⟩

/-- One step preserves the non-negativity invariant. -/
lemma C2Inv.process_step (p : Partition) (tr : Transaction) (rest : List Transaction)
    (hinv : C2Inv p (tr :: rest)) (hpos : tr.posAmount)
    (hsOnce : settleOnce (tr :: rest))
    (hb : holdOk (holdAmount p tr) (p.acct tr.meta.client_id).available_funds) :
    C2Inv (p.process tr) rest := by
  obtain ⟨M, hHeld, hPos, hOpen, hHistPos, hKey, hAvail⟩ := hinv
  by_cases hl : (p.acct tr.meta.client_id).is_locked = true
  · rw [Partition.process_frozen p tr hl]
    exact ⟨M, hHeld, hPos,
      fun t dm a hd hs => hOpen t dm a hd (hasSettleAt_tail hs),
      hHistPos, hKey, hAvail⟩
  · rw [Bool.not_eq_true] at hl
    have hq := Partition.process_unfrozen_eq p tr hl
    have hhist' : (p.process tr).transaction_history =
        mapInsert p.transaction_history tr.meta.transaction_id tr := by rw [hq]
    have hacct_self : (p.process tr).acct tr.meta.client_id =
        stepAcct (p.acct tr.meta.client_id)
          (p.transaction_history tr.meta.transaction_id)
          (p.disputed_transactions tr.meta.transaction_id) tr :=
      Partition.acct_insert_self p _ _ _ (by rw [hq])
    cases tr with
    | Deposit m a =>
        simp only [Transaction.meta] at hl hq hhist' hacct_self
        have hstep : (p.process (.Deposit m a)).acct m.client_id =
            (p.acct m.client_id).deposit a := hacct_self
        have hdisp' : (p.process (.Deposit m a)).disputed_transactions =
            p.disputed_transactions := by rw [hq]; rfl
        refine ⟨M, ?_, hPos, ?_, ?_, ?_, ?_⟩
        · intro c₀
          by_cases hc : c₀ = m.client_id
          · rw [hc, hstep]
            simp only [Account.deposit]
            exact hHeld m.client_id
          · rw [Partition.process_acct_ne p (.Deposit m a) c₀ hc]
            exact hHeld c₀
        · intro t dm a₀ hd hs
          rw [hdisp'] at hd
          exact hOpen t dm a₀ hd (hasSettleAt_tail hs)
        · rw [hhist']
          exact mapInsert_histPos p.transaction_history (.Deposit m a) hpos hHistPos
        · rw [hhist']
          exact mapInsert_histKey p.transaction_history (.Deposit m a) hKey
        · intro c₀
          by_cases hc : c₀ = m.client_id
          · rw [hc, hstep]
            simp only [Account.deposit]
            have h1 := hAvail m.client_id
            have h2 : 0 < a := hpos
            linarith
          · rw [Partition.process_acct_ne p (.Deposit m a) c₀ hc]
            exact hAvail c₀
    | Withdrawal m a =>
        simp only [Transaction.meta] at hl hq hhist' hacct_self
        have hdisp' : (p.process (.Withdrawal m a)).disputed_transactions =
            p.disputed_transactions := by rw [hq]; rfl
        by_cases hge : (p.acct m.client_id).available_funds ≥ a
        · have hstep : (p.process (.Withdrawal m a)).acct m.client_id =
              { p.acct m.client_id with
                  available_funds := (p.acct m.client_id).available_funds - a } := by
            rw [hacct_self]
            simp only [stepAcct, hge, if_true]
          refine ⟨M, ?_, hPos, ?_, ?_, ?_, ?_⟩
          · intro c₀
            by_cases hc : c₀ = m.client_id
            · rw [hc, hstep]; exact hHeld m.client_id
            · rw [Partition.process_acct_ne p (.Withdrawal m a) c₀ hc]; exact hHeld c₀
          · intro t dm a₀ hd hs
            rw [hdisp'] at hd
            exact hOpen t dm a₀ hd (hasSettleAt_tail hs)
          · rw [hhist']; exact mapInsert_histPos p.transaction_history (.Withdrawal m a) hpos hHistPos
          · rw [hhist']; exact mapInsert_histKey p.transaction_history (.Withdrawal m a) hKey
          · intro c₀
            by_cases hc : c₀ = m.client_id
            · rw [hc, hstep]
              show 0 ≤ (p.acct m.client_id).available_funds - a
              linarith [hge]
            · rw [Partition.process_acct_ne p (.Withdrawal m a) c₀ hc]; exact hAvail c₀
        · have hstep : (p.process (.Withdrawal m a)).acct m.client_id =
              p.acct m.client_id := by
            rw [hacct_self]
            simp only [stepAcct, hge, if_false]
          refine ⟨M, ?_, hPos, ?_, ?_, ?_, ?_⟩
          · intro c₀
            by_cases hc : c₀ = m.client_id
            · rw [hc, hstep]; exact hHeld m.client_id
            · rw [Partition.process_acct_ne p (.Withdrawal m a) c₀ hc]; exact hHeld c₀
          · intro t dm a₀ hd hs
            rw [hdisp'] at hd
            exact hOpen t dm a₀ hd (hasSettleAt_tail hs)
          · rw [hhist']; exact mapInsert_histPos p.transaction_history (.Withdrawal m a) hpos hHistPos
          · rw [hhist']; exact mapInsert_histKey p.transaction_history (.Withdrawal m a) hKey
          · intro c₀
            by_cases hc : c₀ = m.client_id
            · rw [hc, hstep]; exact hAvail m.client_id
            · rw [Partition.process_acct_ne p (.Withdrawal m a) c₀ hc]; exact hAvail c₀
    | Dispute m =>
        simp only [Transaction.meta] at hl hq hhist' hacct_self hb
        cases hh : p.transaction_history m.transaction_id with
        | none =>
            rw [hh] at hacct_self
            have hstep : (p.process (.Dispute m)).acct m.client_id =
                p.acct m.client_id := hacct_self
            have hdisp' : (p.process (.Dispute m)).disputed_transactions =
                p.disputed_transactions := by
              rw [hq]; simp only [hh]; rfl
            refine ⟨M, ?_, hPos, ?_, ?_, ?_, ?_⟩
            · intro c₀
              by_cases hc : c₀ = m.client_id
              · rw [hc, hstep]; exact hHeld m.client_id
              · rw [Partition.process_acct_ne p (.Dispute m) c₀ hc]; exact hHeld c₀
            · intro t dm a₀ hd hs
              rw [hdisp'] at hd
              exact hOpen t dm a₀ hd (hasSettleAt_tail hs)
            · rw [hhist']; exact mapInsert_histPos p.transaction_history (.Dispute m) hpos hHistPos
            · rw [hhist']; exact mapInsert_histKey p.transaction_history (.Dispute m) hKey
            · intro c₀
              by_cases hc : c₀ = m.client_id
              · rw [hc, hstep]; exact hAvail m.client_id
              · rw [Partition.process_acct_ne p (.Dispute m) c₀ hc]; exact hAvail c₀
        | some dtr =>
            rw [hh] at hacct_self
            cases hda : disputed_amount dtr m.client_id with
            | none =>
                simp only [stepAcct, hda] at hacct_self
                have hdisp' : (p.process (.Dispute m)).disputed_transactions =
                    p.disputed_transactions := by
                  rw [hq]; simp only [hh, stepDisp, hda]
                refine ⟨M, ?_, hPos, ?_, ?_, ?_, ?_⟩
                · intro c₀
                  by_cases hc : c₀ = m.client_id
                  · rw [hc, hacct_self]; exact hHeld m.client_id
                  · rw [Partition.process_acct_ne p (.Dispute m) c₀ hc]; exact hHeld c₀
                · intro t dm a₀ hd hs
                  rw [hdisp'] at hd
                  exact hOpen t dm a₀ hd (hasSettleAt_tail hs)
                · rw [hhist']; exact mapInsert_histPos p.transaction_history (.Dispute m) hpos hHistPos
                · rw [hhist']; exact mapInsert_histKey p.transaction_history (.Dispute m) hKey
                · intro c₀
                  by_cases hc : c₀ = m.client_id
                  · rw [hc, hacct_self]; exact hAvail m.client_id
                  · rw [Partition.process_acct_ne p (.Dispute m) c₀ hc]; exact hAvail c₀
            | some a =>
                obtain ⟨dm, rfl, hdmc⟩ := disputed_amount_eq_some.mp hda
                simp only [stepAcct, hda] at hacct_self
                have hkey : dm.transaction_id = m.transaction_id :=
                  hKey m.transaction_id (.Deposit dm a) hh
                have hposA : 0 < a := hHistPos m.transaction_id dm a hh
                have hba : a ≤ (p.acct m.client_id).available_funds := by
                  have he : holdAmount p (.Dispute m) = some a := by
                    simp [holdAmount, hl, hh, hda]
                  rw [he] at hb
                  exact hb
                have hdisp' : (p.process (.Dispute m)).disputed_transactions =
                    mapInsert p.disputed_transactions m.transaction_id
                      (.Deposit dm a) := by
                  rw [hq]; simp only [hh, stepDisp, hda, Transaction.meta]
                  rw [hkey]
                refine ⟨Function.update M m.client_id
                  ((m.transaction_id, a) ::ₘ M m.client_id), ?_, ?_, ?_, ?_, ?_, ?_⟩
                · intro c₀
                  by_cases hc : c₀ = m.client_id
                  · rw [hc, hacct_self, Function.update_same]
                    simp only [Account.hold_funds]
                    rw [Multiset.map_cons, Multiset.sum_cons, hHeld m.client_id]
                    ring
                  · rw [Partition.process_acct_ne p (.Dispute m) c₀ hc,
                        Function.update_noteq hc]
                    exact hHeld c₀
                · intro c₀ q hq₀
                  by_cases hc : c₀ = m.client_id
                  · rw [hc, Function.update_same] at hq₀
                    rcases Multiset.mem_cons.mp hq₀ with h | h
                    · rw [h]; exact hposA
                    · exact hPos m.client_id q h
                  · rw [Function.update_noteq hc] at hq₀
                    exact hPos c₀ q hq₀
                · intro t₀ dm₀ a₀ hd₀ hs₀
                  rw [hdisp'] at hd₀
                  by_cases htt : t₀ = m.transaction_id
                  · rw [htt, mapInsert_self] at hd₀
                    injection hd₀ with he
                    injection he with he1 he2
                    rw [← he1, ← he2, hdmc, Function.update_same, htt]
                    exact Multiset.mem_cons_self _ _
                  · rw [mapInsert_ne _ _ _ _ htt] at hd₀
                    have hmem := hOpen t₀ dm₀ a₀ hd₀ (hasSettleAt_tail hs₀)
                    by_cases hcc : dm₀.client_id = m.client_id
                    · rw [hcc, Function.update_same]
                      exact Multiset.mem_cons_of_mem (hcc ▸ hmem)
                    · rw [Function.update_noteq hcc]
                      exact hmem
                · rw [hhist']; exact mapInsert_histPos p.transaction_history (.Dispute m) hpos hHistPos
                · rw [hhist']; exact mapInsert_histKey p.transaction_history (.Dispute m) hKey
                · intro c₀
                  by_cases hc : c₀ = m.client_id
                  · rw [hc, hacct_self]
                    show 0 ≤ (p.acct m.client_id).available_funds - a
                    linarith
                  · rw [Partition.process_acct_ne p (.Dispute m) c₀ hc]; exact hAvail c₀
    | Resolve m =>
        simp only [Transaction.meta] at hl hq hhist' hacct_self
        have hdisp' : (p.process (.Resolve m)).disputed_transactions =
            p.disputed_transactions := by rw [hq]; rfl
        cases hd : p.disputed_transactions m.transaction_id with
        | none =>
            rw [hd] at hacct_self
            refine ⟨M, ?_, hPos, ?_, ?_, ?_, ?_⟩
            · intro c₀
              by_cases hc : c₀ = m.client_id
              · rw [hc, hacct_self]; exact hHeld m.client_id
              · rw [Partition.process_acct_ne p (.Resolve m) c₀ hc]; exact hHeld c₀
            · intro t dm a₀ hd₀ hs
              rw [hdisp'] at hd₀
              exact hOpen t dm a₀ hd₀ (hasSettleAt_tail hs)
            · rw [hhist']; exact mapInsert_histPos p.transaction_history (.Resolve m) hpos hHistPos
            · rw [hhist']; exact mapInsert_histKey p.transaction_history (.Resolve m) hKey
            · intro c₀
              by_cases hc : c₀ = m.client_id
              · rw [hc, hacct_self]; exact hAvail m.client_id
              · rw [Partition.process_acct_ne p (.Resolve m) c₀ hc]; exact hAvail c₀
        | some dtr =>
            rw [hd] at hacct_self
            cases hda : disputed_amount dtr m.client_id with
            | none =>
                simp only [stepAcct, hda] at hacct_self
                refine ⟨M, ?_, hPos, ?_, ?_, ?_, ?_⟩
                · intro c₀
                  by_cases hc : c₀ = m.client_id
                  · rw [hc, hacct_self]; exact hHeld m.client_id
                  · rw [Partition.process_acct_ne p (.Resolve m) c₀ hc]; exact hHeld c₀
                · intro t dm a₀ hd₀ hs
                  rw [hdisp'] at hd₀
                  exact hOpen t dm a₀ hd₀ (hasSettleAt_tail hs)
                · rw [hhist']; exact mapInsert_histPos p.transaction_history (.Resolve m) hpos hHistPos
                · rw [hhist']; exact mapInsert_histKey p.transaction_history (.Resolve m) hKey
                · intro c₀
                  by_cases hc : c₀ = m.client_id
                  · rw [hc, hacct_self]; exact hAvail m.client_id
                  · rw [Partition.process_acct_ne p (.Resolve m) c₀ hc]; exact hAvail c₀
            | some a =>
                obtain ⟨dm, rfl, hdmc⟩ := disputed_amount_eq_some.mp hda
                simp only [stepAcct, hda] at hacct_self
                have hsA : settleTarget (.Resolve m) = some m.transaction_id := rfl
                have hmem : (m.transaction_id, a) ∈ M m.client_id := by
                  have h0 := hOpen m.transaction_id dm a hd (hasSettleAt_self hsA)
                  rw [hdmc] at h0
                  exact h0
                have hposA : 0 < a := hPos m.client_id _ hmem
                have hsum : ((M m.client_id).map Prod.snd).sum =
                    a + (((M m.client_id).erase (m.transaction_id, a)).map
                      Prod.snd).sum := by
                  conv_lhs => rw [← Multiset.cons_erase hmem]
                  rw [Multiset.map_cons, Multiset.sum_cons]
                refine ⟨Function.update M m.client_id
                  ((M m.client_id).erase (m.transaction_id, a)), ?_, ?_, ?_, ?_, ?_, ?_⟩
                · intro c₀
                  by_cases hc : c₀ = m.client_id
                  · rw [hc, hacct_self, Function.update_same]
                    simp only [Account.release_funds]
                    have h1 := hHeld m.client_id
                    linarith [hsum]
                  · rw [Partition.process_acct_ne p (.Resolve m) c₀ hc,
                        Function.update_noteq hc]
                    exact hHeld c₀
                · intro c₀ q hq₀
                  by_cases hc : c₀ = m.client_id
                  · rw [hc, Function.update_same] at hq₀
                    exact hPos m.client_id q (Multiset.mem_of_mem_erase hq₀)
                  · rw [Function.update_noteq hc] at hq₀
                    exact hPos c₀ q hq₀
                · intro t₀ dm₀ a₀ hd₀ hs₀
                  rw [hdisp'] at hd₀
                  by_cases htt : t₀ = m.transaction_id
                  · exfalso
                    rw [htt] at hs₀
                    exact settleOnce_head hsOnce hsA hs₀
                  · have hmem₀ := hOpen t₀ dm₀ a₀ hd₀ (hasSettleAt_tail hs₀)
                    by_cases hcc : dm₀.client_id = m.client_id
                    · rw [hcc, Function.update_same]
                      refine (Multiset.mem_erase_of_ne ?_).mpr (hcc ▸ hmem₀)
                      intro hpe
                      exact htt (congrArg Prod.fst hpe)
                    · rw [Function.update_noteq hcc]
                      exact hmem₀
                · rw [hhist']; exact mapInsert_histPos p.transaction_history (.Resolve m) hpos hHistPos
                · rw [hhist']; exact mapInsert_histKey p.transaction_history (.Resolve m) hKey
                · intro c₀
                  by_cases hc : c₀ = m.client_id
                  · rw [hc, hacct_self]
                    show 0 ≤ (p.acct m.client_id).available_funds + a
                    have h1 := hAvail m.client_id
                    linarith
                  · rw [Partition.process_acct_ne p (.Resolve m) c₀ hc]; exact hAvail c₀
    | Chargeback m =>
        simp only [Transaction.meta] at hl hq hhist' hacct_self
        have hdisp' : (p.process (.Chargeback m)).disputed_transactions =
            p.disputed_transactions := by rw [hq]; rfl
        cases hd : p.disputed_transactions m.transaction_id with
        | none =>
            rw [hd] at hacct_self
            refine ⟨M, ?_, hPos, ?_, ?_, ?_, ?_⟩
            · intro c₀
              by_cases hc : c₀ = m.client_id
              · rw [hc, hacct_self]; exact hHeld m.client_id
              · rw [Partition.process_acct_ne p (.Chargeback m) c₀ hc]; exact hHeld c₀
            · intro t dm a₀ hd₀ hs
              rw [hdisp'] at hd₀
              exact hOpen t dm a₀ hd₀ (hasSettleAt_tail hs)
            · rw [hhist']; exact mapInsert_histPos p.transaction_history (.Chargeback m) hpos hHistPos
            · rw [hhist']; exact mapInsert_histKey p.transaction_history (.Chargeback m) hKey
            · intro c₀
              by_cases hc : c₀ = m.client_id
              · rw [hc, hacct_self]; exact hAvail m.client_id
              · rw [Partition.process_acct_ne p (.Chargeback m) c₀ hc]; exact hAvail c₀
        | some dtr =>
            rw [hd] at hacct_self
            cases hda : disputed_amount dtr m.client_id with
            | none =>
                simp only [stepAcct, hda] at hacct_self
                refine ⟨M, ?_, hPos, ?_, ?_, ?_, ?_⟩
                · intro c₀
                  by_cases hc : c₀ = m.client_id
                  · rw [hc, hacct_self]; exact hHeld m.client_id
                  · rw [Partition.process_acct_ne p (.Chargeback m) c₀ hc]; exact hHeld c₀
                · intro t dm a₀ hd₀ hs
                  rw [hdisp'] at hd₀
                  exact hOpen t dm a₀ hd₀ (hasSettleAt_tail hs)
                · rw [hhist']; exact mapInsert_histPos p.transaction_history (.Chargeback m) hpos hHistPos
                · rw [hhist']; exact mapInsert_histKey p.transaction_history (.Chargeback m) hKey
                · intro c₀
                  by_cases hc : c₀ = m.client_id
                  · rw [hc, hacct_self]; exact hAvail m.client_id
                  · rw [Partition.process_acct_ne p (.Chargeback m) c₀ hc]; exact hAvail c₀
            | some a =>
                obtain ⟨dm, rfl, hdmc⟩ := disputed_amount_eq_some.mp hda
                simp only [stepAcct, hda] at hacct_self
                have hsA : settleTarget (.Chargeback m) = some m.transaction_id := rfl
                have hmem : (m.transaction_id, a) ∈ M m.client_id := by
                  have h0 := hOpen m.transaction_id dm a hd (hasSettleAt_self hsA)
                  rw [hdmc] at h0
                  exact h0
                have hsum : ((M m.client_id).map Prod.snd).sum =
                    a + (((M m.client_id).erase (m.transaction_id, a)).map
                      Prod.snd).sum := by
                  conv_lhs => rw [← Multiset.cons_erase hmem]
                  rw [Multiset.map_cons, Multiset.sum_cons]
                refine ⟨Function.update M m.client_id
                  ((M m.client_id).erase (m.transaction_id, a)), ?_, ?_, ?_, ?_, ?_, ?_⟩
                · intro c₀
                  by_cases hc : c₀ = m.client_id
                  · rw [hc, hacct_self, Function.update_same]
                    simp only [Account.chargeback]
                    have h1 := hHeld m.client_id
                    linarith [hsum]
                  · rw [Partition.process_acct_ne p (.Chargeback m) c₀ hc,
                        Function.update_noteq hc]
                    exact hHeld c₀
                · intro c₀ q hq₀
                  by_cases hc : c₀ = m.client_id
                  · rw [hc, Function.update_same] at hq₀
                    exact hPos m.client_id q (Multiset.mem_of_mem_erase hq₀)
                  · rw [Function.update_noteq hc] at hq₀
                    exact hPos c₀ q hq₀
                · intro t₀ dm₀ a₀ hd₀ hs₀
                  rw [hdisp'] at hd₀
                  by_cases htt : t₀ = m.transaction_id
                  · exfalso
                    rw [htt] at hs₀
                    exact settleOnce_head hsOnce hsA hs₀
                  · have hmem₀ := hOpen t₀ dm₀ a₀ hd₀ (hasSettleAt_tail hs₀)
                    by_cases hcc : dm₀.client_id = m.client_id
                    · rw [hcc, Function.update_same]
                      refine (Multiset.mem_erase_of_ne ?_).mpr (hcc ▸ hmem₀)
                      intro hpe
                      exact htt (congrArg Prod.fst hpe)
                    · rw [Function.update_noteq hcc]
                      exact hmem₀
                · rw [hhist']; exact mapInsert_histPos p.transaction_history (.Chargeback m) hpos hHistPos
                · rw [hhist']; exact mapInsert_histKey p.transaction_history (.Chargeback m) hKey
                · intro c₀
                  by_cases hc : c₀ = m.client_id
                  · rw [hc, hacct_self]
                    show 0 ≤ (p.acct m.client_id).available_funds
                    exact hAvail m.client_id
                  · rw [Partition.process_acct_ne p (.Chargeback m) c₀ hc]; exact hAvail c₀

/-- Processing a prefix preserves the non-negativity invariant with
respect to the remaining stream. -/
lemma C2Inv.process_prefix (l1 : List Transaction) :
    ∀ (p : Partition) (l2 : List Transaction),
      C2Inv p (l1 ++ l2) → posAmounts l1 → settleOnce (l1 ++ l2) →
      backed p l1 → C2Inv (Partition.processAll p l1) l2 := by
  induction l1 with
  | nil => intro p l2 h _ _ _; exact h
  | cons tr rest ih =>
      intro p l2 h hpos hso hb
      rw [Partition.processAll_cons]
      exact ih _ _
        (C2Inv.process_step p tr (rest ++ l2) h (hpos tr (by simp)) hso hb.1)
        (fun tr' htr' => hpos tr' (by simp [htr']))
        (settleOnce_tail hso) hb.2

/-- The non-negativity invariant holds of the empty partition. -/
lemma C2Inv.init (l : List Transaction) : C2Inv Partition.new l := by
  refine ⟨fun _ => 0, ?_, ?_, ?_, ?_, ?_, ?_⟩
  · intro c; simp [Partition.acct, Partition.new, Account.new]
  · intro c q hq; exact absurd hq (by simp)
  · intro t dm a hd; exact absurd hd (by simp [Partition.new])
  · intro t dm a hh; exact absurd hh (by simp [Partition.new])
  · intro t tr hh; exact absurd hh (by simp [Partition.new])
  · intro c; simp [Partition.acct, Partition.new, Account.new]

/-! ### Claim theorems -/

/-- Claim C3 (confirmed): once an account's locked flag is true, its
account entry — available funds, held funds and the lock — is unchanged
by processing any further stream of transactions. -/
theorem locked_account_is_terminal (p : Partition) (c : ClientId) (acc : Account)
    (hacc : p.accounts c = some acc) (hlock : acc.is_locked = true)
    (l : List Transaction) :
    (Partition.processAll p l).accounts c = some acc := by
  induction l generalizing p with
  | nil => exact hacc
  | cons tr rest ih =>
      rw [Partition.processAll_cons]
      exact ih _ (Partition.process_locked_entry p c acc hacc hlock tr)

/-- Witness for C3: a concrete chargeback locks client 1 at
`(0, 0, locked)`; further deposits, withdrawals, disputes and resolves
leave the entry untouched. -/
theorem locked_account_is_terminal_witness :
    (Partition.processAll Partition.new
        [.Deposit ⟨1, 1⟩ 4, .Dispute ⟨1, 1⟩, .Chargeback ⟨1, 1⟩]).accounts 1 =
      some ⟨0, 0, true⟩ ∧
    (Account.is_locked ⟨0, 0, true⟩ = true) ∧
    (Partition.processAll
        (Partition.processAll Partition.new
          [.Deposit ⟨1, 1⟩ 4, .Dispute ⟨1, 1⟩, .Chargeback ⟨1, 1⟩])
        [.Deposit ⟨1, 2⟩ 100, .Withdrawal ⟨1, 3⟩ 1, .Dispute ⟨1, 1⟩,
         .Resolve ⟨1, 1⟩]).accounts 1 = some ⟨0, 0, true⟩ :=
  ⟨by decide, by decide,
    locked_account_is_terminal _ 1 ⟨0, 0, true⟩ (by decide) (by decide) _⟩

/-- Counterexample to claim C4 as stated: `Account::deposit` called on a
locked account does mutate it — the `Account` operations themselves never
consult the lock. -/
theorem account_ops_check_lock_cex :
    Account.deposit ⟨0, 0, true⟩ 1 ≠ (⟨0, 0, true⟩ : Account) := by decide

/-- Claim C4 (corrected): the `Account` mutation operations do not
consult `is_locked` — on a locked account they update the balance fields
by the same formulas as on an unlocked one (and `deposit`, `withdraw`,
`hold_funds`, `release_funds` keep the flag; `chargeback` sets it).  The
frozen no-op guarantee is enforced one layer up: `Partition::process`
returns before invoking any operation on a locked account. -/
theorem account_ops_ignore_lock (acc : Account) (a : ℚ)
    (h : acc.is_locked = true) :
    acc.deposit a = ⟨acc.available_funds + a, acc.held_funds, true⟩ ∧
    Account.withdraw acc a =
      (if acc.available_funds ≥ a then
        some ⟨acc.available_funds - a, acc.held_funds, true⟩ else none) ∧
    acc.hold_funds a = ⟨acc.available_funds - a, acc.held_funds + a, true⟩ ∧
    acc.release_funds a = ⟨acc.available_funds + a, acc.held_funds - a, true⟩ ∧
    acc.chargeback a = ⟨acc.available_funds, acc.held_funds - a, true⟩ ∧
    (∀ (p : Partition) (tr : Transaction),
        p.acct tr.meta.client_id = acc → p.process tr = p) := by
  refine ⟨?_, ?_, ?_, ?_, ?_, ?_⟩
  · simp [Account.deposit, h]
  · simp only [Account.withdraw, h]
  · simp [Account.hold_funds, h]
  · simp [Account.release_funds, h]
  · simp [Account.chargeback, h]
  · intro p tr hpt
    exact Partition.process_frozen p tr (by rw [hpt]; exact h)

/-- Witness for C4's amended statement at a locked account with balance
`(2, 3)` and amount `5`, and at a concrete frozen partition. -/
theorem account_ops_ignore_lock_witness :
    Account.deposit ⟨2, 3, true⟩ 5 = ⟨7, 3, true⟩ ∧
    (Partition.processAll Partition.new
        [.Deposit ⟨1, 1⟩ 4, .Dispute ⟨1, 1⟩, .Chargeback ⟨1, 1⟩]).process
      (.Deposit ⟨1, 9⟩ 5) =
      Partition.processAll Partition.new
        [.Deposit ⟨1, 1⟩ 4, .Dispute ⟨1, 1⟩, .Chargeback ⟨1, 1⟩] := by
  have h := account_ops_ignore_lock ⟨2, 3, true⟩ 5 rfl
  have h0 := account_ops_ignore_lock ⟨0, 0, true⟩ 5 rfl
  constructor
  · rw [h.1]; norm_num
  · exact h0.2.2.2.2.2 _ _ (by decide)

/-- Claim C6 (confirmed): resolve and chargeback never remove the
referenced entry from `disputed_transactions`; consequently, after a
resolve of id `T` the entry is still found and a second resolve releases
again, and a chargeback after a resolve charges back again. -/
theorem settle_never_removes_dispute :
    (∀ (p : Partition) (m : Meta),
        (p.process (.Resolve m)).disputed_transactions = p.disputed_transactions ∧
        (p.process (.Chargeback m)).disputed_transactions = p.disputed_transactions) ∧
    (∀ (p : Partition) (m dm : Meta) (a : ℚ),
        p.disputed_transactions m.transaction_id = some (.Deposit dm a) →
        dm.client_id = m.client_id →
        (p.acct m.client_id).is_locked = false →
        ((p.process (.Resolve m)).disputed_transactions m.transaction_id =
            some (.Deposit dm a) ∧
         ((p.process (.Resolve m)).process (.Resolve m)).acct m.client_id =
            ((p.acct m.client_id).release_funds a).release_funds a ∧
         ((p.process (.Resolve m)).process (.Chargeback m)).acct m.client_id =
            ((p.acct m.client_id).release_funds a).chargeback a)) := by
  constructor
  · intro p m
    exact ⟨Partition.process_settle_disputed p m _ (Or.inl rfl),
           Partition.process_settle_disputed p m _ (Or.inr rfl)⟩
  · intro p m dm a hd hdc hl
    have hda : disputed_amount (.Deposit dm a) m.client_id = some a := by
      simp [disputed_amount, Transaction.meta, hdc]
    have h1 := Partition.process_resolve_hit p m (.Deposit dm a) a hl hd hda
    have hd1 : (p.process (.Resolve m)).disputed_transactions m.transaction_id =
        some (.Deposit dm a) := by rw [h1]; exact hd
    have hacct1 : (p.process (.Resolve m)).acct m.client_id =
        (p.acct m.client_id).release_funds a :=
      Partition.acct_insert_self p _ _ _ (by rw [h1])
    have hl1 : ((p.process (.Resolve m)).acct m.client_id).is_locked = false := by
      rw [hacct1]; exact hl
    refine ⟨hd1, ?_, ?_⟩
    · have h2 := Partition.process_resolve_hit (p.process (.Resolve m)) m
        (.Deposit dm a) a hl1 hd1 hda
      have h3 : ((p.process (.Resolve m)).process (.Resolve m)).acct m.client_id =
          ((p.process (.Resolve m)).acct m.client_id).release_funds a :=
        Partition.acct_insert_self (p.process (.Resolve m)) _ _ _ (by rw [h2])
      rw [h3, hacct1]
    · have h2 := Partition.process_chargeback_hit (p.process (.Resolve m)) m
        (.Deposit dm a) a hl1 hd1 hda
      have h3 : ((p.process (.Resolve m)).process (.Chargeback m)).acct m.client_id =
          ((p.process (.Resolve m)).acct m.client_id).chargeback a :=
        Partition.acct_insert_self (p.process (.Resolve m)) _ _ _ (by rw [h2])
      rw [h3, hacct1]

/-- Witness for C6: after depositing 5 and disputing it, resolving twice
releases twice, driving held to -5; chargeback after resolve also
re-triggers. -/
theorem settle_never_removes_dispute_witness :
    ((Partition.processAll Partition.new
        [.Deposit ⟨1, 1⟩ 5, .Dispute ⟨1, 1⟩]).process
          (.Resolve ⟨1, 1⟩)).disputed_transactions 1 =
      some (.Deposit ⟨1, 1⟩ 5) ∧
    (((Partition.processAll Partition.new
        [.Deposit ⟨1, 1⟩ 5, .Dispute ⟨1, 1⟩]).process
          (.Resolve ⟨1, 1⟩)).process (.Resolve ⟨1, 1⟩)).acct 1 =
      ((⟨0, 5, false⟩ : Account).release_funds 5).release_funds 5 := by
  have h := settle_never_removes_dispute.2
    (Partition.processAll Partition.new [.Deposit ⟨1, 1⟩ 5, .Dispute ⟨1, 1⟩])
    ⟨1, 1⟩ ⟨1, 1⟩ 5 (by decide) rfl (by decide)
  refine ⟨h.1, ?_⟩
  rw [h.2.1]
  rw [show (Partition.processAll Partition.new
    [.Deposit ⟨1, 1⟩ 5, .Dispute ⟨1, 1⟩]).acct 1 = ⟨0, 5, false⟩ from by decide]

/-- Counterexample to claim C7 as stated: for a locked account nothing
is recorded — the frozen guard returns before the history insert, so the
history does not map the processed transaction's id to it. -/
theorem history_unconditional_cex :
    ((Partition.processAll Partition.new
        [.Deposit ⟨1, 1⟩ 4, .Dispute ⟨1, 1⟩, .Chargeback ⟨1, 1⟩]).process
      (.Deposit ⟨1, 9⟩ 5)).transaction_history 9 = none := by decide

/-- Claim C7 (corrected): when the account is not locked, the processed
transaction is recorded in `transaction_history` under its own id,
overwriting any prior entry, for every transaction kind; when the
account is locked, nothing at all is recorded (the spec's step 2
behavior, contradicting its step 4). -/
theorem history_insert_semantics (p : Partition) (tr : Transaction) :
    (p.process tr).transaction_history =
      if (p.acct tr.meta.client_id).is_locked then p.transaction_history
      else mapInsert p.transaction_history tr.meta.transaction_id tr :=
  Partition.process_history p tr

/-- Claim C8 (confirmed): the fatal assertion inside `Account::withdraw`
is unreachable from `Partition::process` — the panic-propagating
semantics always succeeds and agrees with the total semantics — and a
withdrawal exceeding the available funds leaves the account unchanged. -/
theorem withdraw_assert_unreachable :
    (∀ (p : Partition) (tr : Transaction),
        p.processOpt tr = some (p.process tr)) ∧
    (∀ (p : Partition) (m : Meta) (a : ℚ),
        ¬ (p.acct m.client_id).available_funds ≥ a →
        (p.process (.Withdrawal m a)).acct m.client_id = p.acct m.client_id) := by
  constructor
  · intro p tr
    cases tr with
    | Deposit m a =>
        simp only [Partition.process, Partition.processOpt, Transaction.meta]
        by_cases hl : ((p.accounts m.client_id).getD Account.new).is_frozen <;>
          simp [hl]
    | Withdrawal m a =>
        simp only [Partition.process, Partition.processOpt, Transaction.meta]
        by_cases hl : ((p.accounts m.client_id).getD Account.new).is_frozen
        · simp [hl]
        · by_cases hge : ((p.accounts m.client_id).getD Account.new).available_funds ≥ a
          · simp [hl, hge, Account.withdraw]
          · simp [hl, hge]
    | Dispute m =>
        simp only [Partition.process, Partition.processOpt, Transaction.meta]
        by_cases hl : ((p.accounts m.client_id).getD Account.new).is_frozen
        · simp [hl]
        · cases hh : p.transaction_history m.transaction_id with
          | none => simp [hl, hh]
          | some dtr =>
              cases hda : disputed_amount dtr m.client_id with
              | none => simp [hl, hh, hda]
              | some amt => simp [hl, hh, hda]
    | Resolve m =>
        simp only [Partition.process, Partition.processOpt, Transaction.meta]
        by_cases hl : ((p.accounts m.client_id).getD Account.new).is_frozen
        · simp [hl]
        · cases hd : p.disputed_transactions m.transaction_id with
          | none => simp [hl, hd]
          | some dtr =>
              cases hda : disputed_amount dtr m.client_id with
              | none => simp [hl, hd, hda]
              | some amt => simp [hl, hd, hda]
    | Chargeback m =>
        simp only [Partition.process, Partition.processOpt, Transaction.meta]
        by_cases hl : ((p.accounts m.client_id).getD Account.new).is_frozen
        · simp [hl]
        · cases hd : p.disputed_transactions m.transaction_id with
          | none => simp [hl, hd]
          | some dtr =>
              cases hda : disputed_amount dtr m.client_id with
              | none => simp [hl, hd, hda]
              | some amt => simp [hl, hd, hda]
  · intro p m a hlt
    by_cases hl : (p.acct m.client_id).is_locked = true
    · rw [Partition.process_frozen p (.Withdrawal m a) hl]
    · rw [Bool.not_eq_true] at hl
      exact Partition.acct_insert_self p _ _ _
        (by rw [Partition.process_withdrawal_insufficient p m a hl hlt])

/-- Counterexample to claim C5 as stated: with a frozen account, a
dispute whose referenced transaction is a matching deposit of the same
client moves nothing — the history entry for id 1 is a deposit of
client 1 with amount 5, yet the dispute leaves available at 5 and held
at 0 and records nothing in `disputed_transactions`. -/
theorem dispute_semantics_cex :
    (Partition.processAll Partition.new
        [.Deposit ⟨1, 1⟩ 5, .Deposit ⟨1, 2⟩ 5, .Dispute ⟨1, 2⟩,
         .Chargeback ⟨1, 2⟩]).transaction_history 1 =
      some (.Deposit ⟨1, 1⟩ 5) ∧
    ((Partition.processAll Partition.new
        [.Deposit ⟨1, 1⟩ 5, .Deposit ⟨1, 2⟩ 5, .Dispute ⟨1, 2⟩,
         .Chargeback ⟨1, 2⟩]).process (.Dispute ⟨1, 1⟩)).acct 1 =
      ⟨5, 0, true⟩ ∧
    ((Partition.processAll Partition.new
        [.Deposit ⟨1, 1⟩ 5, .Deposit ⟨1, 2⟩ 5, .Dispute ⟨1, 2⟩,
         .Chargeback ⟨1, 2⟩]).process (.Dispute ⟨1, 1⟩)).disputed_transactions 1 =
      none := by
  refine ⟨by decide, ?_, ?_⟩ <;>
    rw [Partition.process_frozen _ _ (by decide)] <;> decide

/-- Claim C5 (corrected): for an account that is not locked, a dispute
whose referenced id maps in the history to a deposit of the same client
moves that amount from available to held and records the deposit in
`disputed_transactions` under its own id; if the entry is absent, of
another kind, or belongs to a different client, every account and the
disputed set are unchanged.  (As stated the claim also covered locked
accounts, where the dispute does nothing; see the counterexample.) -/
theorem dispute_semantics (p : Partition) (m : Meta)
    (h : (p.acct m.client_id).is_locked = false) :
    (∀ dm a, p.transaction_history m.transaction_id = some (.Deposit dm a) →
        dm.client_id = m.client_id →
        ((p.process (.Dispute m)).acct m.client_id =
            (p.acct m.client_id).hold_funds a ∧
         (p.process (.Dispute m)).disputed_transactions =
            mapInsert p.disputed_transactions dm.transaction_id (.Deposit dm a))) ∧
    ((∀ dtr, p.transaction_history m.transaction_id = some dtr →
        disputed_amount dtr m.client_id = none) →
        ((∀ c, (p.process (.Dispute m)).acct c = p.acct c) ∧
         (p.process (.Dispute m)).disputed_transactions =
            p.disputed_transactions)) := by
  constructor
  · intro dm a hh hdc
    have hda : disputed_amount (.Deposit dm a) m.client_id = some a := by
      simp [disputed_amount, Transaction.meta, hdc]
    have h1 := Partition.process_dispute_hit p m (.Deposit dm a) a h hh hda
    refine ⟨Partition.acct_insert_self p _ _ _ (by rw [h1]), ?_⟩
    rw [h1]
    rfl
  · intro hmiss
    have h1 := Partition.process_dispute_miss p m h hmiss
    constructor
    · intro c
      by_cases hc : c = m.client_id
      · subst hc; exact Partition.acct_insert_self p _ _ _ (by rw [h1])
      · exact Partition.process_acct_ne p _ c hc
    · rw [h1]

/-- Witness for C5: disputing a recorded deposit of 4 for client 1 moves
the 4 from available to held; disputing an unknown id is a no-op. -/
theorem dispute_semantics_witness :
    ((Partition.processAll Partition.new [.Deposit ⟨1, 1⟩ 4]).process
        (.Dispute ⟨1, 1⟩)).acct 1 = (⟨4, 0, false⟩ : Account).hold_funds 4 ∧
    ((Partition.processAll Partition.new [.Deposit ⟨1, 1⟩ 4]).process
        (.Dispute ⟨1, 9⟩)).acct 1 =
      (Partition.processAll Partition.new [.Deposit ⟨1, 1⟩ 4]).acct 1 := by
  constructor
  · have h := (dispute_semantics
      (Partition.processAll Partition.new [.Deposit ⟨1, 1⟩ 4]) ⟨1, 1⟩
      (by decide)).1 ⟨1, 1⟩ 4 (by decide) rfl
    rw [h.1]
    rw [show (Partition.processAll Partition.new [.Deposit ⟨1, 1⟩ 4]).acct 1 =
      ⟨4, 0, false⟩ from by decide]
  · have h := (dispute_semantics
      (Partition.processAll Partition.new [.Deposit ⟨1, 1⟩ 4]) ⟨1, 9⟩
      (by decide)).2 (fun dtr hdtr => by
        rw [show (Partition.processAll Partition.new
          [.Deposit ⟨1, 1⟩ 4]).transaction_history 9 = none from by decide] at hdtr
        exact absurd hdtr (by simp))
    exact h.1 1

/-- Counterexample to claim C9 as stated: inserting a dispute by client 1
against client 2's transaction id 7 changes client 2's final balances.
Without it, client 2's own later dispute of id 7 holds the 5; with it,
the foreign dispute overwrites history entry 7, so client 2's dispute is
a no-op. -/
theorem foreign_dispute_cex :
    singleFinal [.Deposit ⟨2, 7⟩ 5, .Dispute ⟨1, 7⟩, .Dispute ⟨2, 7⟩] 2 ≠
      singleFinal [.Deposit ⟨2, 7⟩ 5, .Dispute ⟨2, 7⟩] 2 := by decide

/-- Claim C9 (corrected): a dispute referencing a transaction id that is
absent from the history, or whose history entry belongs to a different
client, changes no account's balances and leaves the disputed set
unchanged at the step it is processed.  (It does, however, overwrite the
history entry for that id, which can change the owner's balances later —
see the counterexample.) -/
theorem foreign_dispute_noop (p : Partition) (m : Meta)
    (h : ∀ dtr, p.transaction_history m.transaction_id = some dtr →
        dtr.meta.client_id ≠ m.client_id) :
    (∀ c, (p.process (.Dispute m)).acct c = p.acct c) ∧
    (p.process (.Dispute m)).disputed_transactions = p.disputed_transactions := by
  by_cases hl : ((p.acct m.client_id).is_locked) = true
  · rw [Partition.process_frozen p (.Dispute m) hl]
    exact ⟨fun _ => rfl, rfl⟩
  · rw [Bool.not_eq_true] at hl
    have hmiss : ∀ dtr, p.transaction_history m.transaction_id = some dtr →
        disputed_amount dtr m.client_id = none := by
      intro dtr hdtr
      unfold disputed_amount
      rw [if_pos (h dtr hdtr)]
    have h1 := Partition.process_dispute_miss p m hl hmiss
    constructor
    · intro c
      by_cases hc : c = m.client_id
      · subst hc; exact Partition.acct_insert_self p _ _ _ (by rw [h1])
      · exact Partition.process_acct_ne p _ c hc
    · rw [h1]

/-- Witness for C9's amended statement: client 1 disputes client 2's
deposit id 7; neither client's balances nor the disputed set change. -/
theorem foreign_dispute_noop_witness :
    ((Partition.processAll Partition.new [.Deposit ⟨2, 7⟩ 5]).process
        (.Dispute ⟨1, 7⟩)).acct 2 =
      (Partition.processAll Partition.new [.Deposit ⟨2, 7⟩ 5]).acct 2 ∧
    ((Partition.processAll Partition.new [.Deposit ⟨2, 7⟩ 5]).process
        (.Dispute ⟨1, 7⟩)).acct 1 =
      (Partition.processAll Partition.new [.Deposit ⟨2, 7⟩ 5]).acct 1 := by
  have h := foreign_dispute_noop
    (Partition.processAll Partition.new [.Deposit ⟨2, 7⟩ 5]) ⟨1, 7⟩
    (fun dtr hdtr => by
      rw [show (Partition.processAll Partition.new
        [.Deposit ⟨2, 7⟩ 5]).transaction_history 7 =
          some (.Deposit ⟨2, 7⟩ 5) from by decide] at hdtr
      injection hdtr with he
      rw [← he]
      decide)
  exact ⟨h.1 2, h.1 1⟩

/-- Witness for C8: an over-large withdrawal is a silent no-op, and the
panic-free agreement at a concrete state and transaction. -/
theorem withdraw_assert_unreachable_witness :
    (Partition.processAll Partition.new
        [.Deposit ⟨1, 1⟩ 4]).processOpt (.Withdrawal ⟨1, 2⟩ 10) =
      some ((Partition.processAll Partition.new
        [.Deposit ⟨1, 1⟩ 4]).process (.Withdrawal ⟨1, 2⟩ 10)) ∧
    ((Partition.processAll Partition.new
        [.Deposit ⟨1, 1⟩ 4]).process (.Withdrawal ⟨1, 2⟩ 10)).acct 1 =
      (Partition.processAll Partition.new [.Deposit ⟨1, 1⟩ 4]).acct 1 :=
  ⟨withdraw_assert_unreachable.1 _ _,
   withdraw_assert_unreachable.2 _ ⟨1, 2⟩ 10 (by decide)⟩

/-- A transaction's client has an account in the final state of the
worker its client id routes to. -/
lemma workerFinal_isSome_of_mem (route : ClientId → ℕ) (l : List Transaction)
    (tr : Transaction) (h : tr ∈ l) :
    ((workerFinal route (route tr.meta.client_id) l).accounts
      tr.meta.client_id).isSome := by
  obtain ⟨s, t, rfl⟩ := List.append_of_mem h
  unfold workerFinal shardStream
  rw [List.filter_append]
  have hcons : List.filter
      (fun tr' => decide (route tr'.meta.client_id = route tr.meta.client_id))
      (tr :: t) =
      tr :: List.filter
        (fun tr' => decide (route tr'.meta.client_id = route tr.meta.client_id)) t := by
    simp [List.filter_cons]
  rw [hcons, Partition.processAll_append, Partition.processAll_cons]
  exact Partition.processAll_accounts_isSome_mono _ _ _
    (Partition.process_accounts_self_isSome _ tr)

/-- Claim C10 (confirmed): processing any transaction creates an account
entry for its client if none exists; for a dispute, resolve or
chargeback referencing an unknown id the created entry is exactly the
zero, unlocked account; and any client mentioned in the stream has an
account in the result set collected at shutdown. -/
theorem lazy_account_creation :
    (∀ (p : Partition) (tr : Transaction),
        ((p.process tr).accounts tr.meta.client_id).isSome = true) ∧
    (∀ (p : Partition) (m : Meta), p.accounts m.client_id = none →
        (p.transaction_history m.transaction_id = none →
          (p.process (.Dispute m)).accounts m.client_id = some Account.new) ∧
        (p.disputed_transactions m.transaction_id = none →
          ((p.process (.Resolve m)).accounts m.client_id = some Account.new ∧
           (p.process (.Chargeback m)).accounts m.client_id = some Account.new))) ∧
    (∀ (n : ℕ) (hash : ClientId → ℕ) (l : List Transaction) (c : ClientId),
        (∃ tr ∈ l, tr.meta.client_id = c) →
        (Processor.finalAccount n hash l c).isSome = true) := by
  have hnew : ∀ (p : Partition) (c : ClientId), p.accounts c = none →
      p.acct c = Account.new := by
    intro p c hc; unfold Partition.acct; rw [hc]; rfl
  refine ⟨fun p tr => Partition.process_accounts_self_isSome p tr, ?_, ?_⟩
  · intro p m hnone
    have hl : (p.acct m.client_id).is_locked = false := by
      rw [hnew p m.client_id hnone]; rfl
    constructor
    · intro hh
      have h1 := Partition.process_dispute_miss p m hl (fun dtr hdtr => by
        rw [hh] at hdtr; exact absurd hdtr (by simp))
      rw [h1]
      show mapInsert p.accounts m.client_id (p.acct m.client_id) m.client_id = _
      rw [mapInsert_self, hnew p m.client_id hnone]
    · intro hd
      constructor
      · have h1 := Partition.process_resolve_miss p m hl (fun dtr hdtr => by
          rw [hd] at hdtr; exact absurd hdtr (by simp))
        rw [h1]
        show mapInsert p.accounts m.client_id (p.acct m.client_id) m.client_id = _
        rw [mapInsert_self, hnew p m.client_id hnone]
      · have h1 := Partition.process_chargeback_miss p m hl (fun dtr hdtr => by
          rw [hd] at hdtr; exact absurd hdtr (by simp))
        rw [h1]
        show mapInsert p.accounts m.client_id (p.acct m.client_id) m.client_id = _
        rw [mapInsert_self, hnew p m.client_id hnone]
  · intro n hash l c ⟨tr, htr, hc⟩
    unfold Processor.finalAccount
    subst hc
    exact workerFinal_isSome_of_mem (fun c' => hash c' % n) l tr htr

/-- Witness for C10: a resolve referencing an unknown id for an unseen
client creates the zero account, and with one worker the client appears
in the collected result set. -/
theorem lazy_account_creation_witness :
    (Partition.new.process (.Resolve ⟨1, 9⟩)).accounts 1 = some Account.new ∧
    (Processor.finalAccount 1 (fun _ => 0) [.Resolve ⟨1, 9⟩] 1).isSome = true := by
  constructor
  · exact ((lazy_account_creation.2.1 Partition.new ⟨1, 9⟩ rfl).2 rfl).1
  · exact lazy_account_creation.2.2 1 (fun _ => 0) [.Resolve ⟨1, 9⟩] 1
      ⟨.Resolve ⟨1, 9⟩, by decide, rfl⟩

/-- Counterexample to claim C2 as stated: with all amounts strictly
positive, resolving the same dispute twice drives held to -5, and
charging back a deposit that was already withdrawn drives
available + held to -5. -/
theorem held_and_total_nonneg_cex :
    posAmounts [.Deposit ⟨1, 1⟩ 5, .Dispute ⟨1, 1⟩, .Resolve ⟨1, 1⟩,
      .Resolve ⟨1, 1⟩] ∧
    ((Partition.processAll Partition.new
        [.Deposit ⟨1, 1⟩ 5, .Dispute ⟨1, 1⟩, .Resolve ⟨1, 1⟩,
         .Resolve ⟨1, 1⟩]).acct 1).held_funds < 0 ∧
    posAmounts [.Deposit ⟨1, 1⟩ 5, .Withdrawal ⟨1, 2⟩ 5, .Dispute ⟨1, 1⟩,
      .Chargeback ⟨1, 1⟩] ∧
    ((Partition.processAll Partition.new
        [.Deposit ⟨1, 1⟩ 5, .Withdrawal ⟨1, 2⟩ 5, .Dispute ⟨1, 1⟩,
         .Chargeback ⟨1, 1⟩]).acct 1).available_funds +
      ((Partition.processAll Partition.new
        [.Deposit ⟨1, 1⟩ 5, .Withdrawal ⟨1, 2⟩ 5, .Dispute ⟨1, 1⟩,
         .Chargeback ⟨1, 1⟩]).acct 1).held_funds < 0 := by
  refine ⟨by decide, by decide, by decide, by decide⟩

/-- Claim C2 (corrected): for a stream of strictly positive amounts in
which each transaction id is resolved or charged back at most once and
every effective dispute holds an amount still available at that moment,
every account's available funds and held funds — hence their sum — are
non-negative after every prefix of the stream. -/
theorem held_and_total_nonneg (l : List Transaction)
    (hpos : posAmounts l) (hso : settleOnce l) (hb : backed Partition.new l) :
    ∀ l1 l2, l = l1 ++ l2 → ∀ c,
      0 ≤ ((Partition.processAll Partition.new l1).acct c).available_funds ∧
      0 ≤ ((Partition.processAll Partition.new l1).acct c).held_funds ∧
      0 ≤ ((Partition.processAll Partition.new l1).acct c).available_funds +
          ((Partition.processAll Partition.new l1).acct c).held_funds := by
  intro l1 l2 hsplit c
  subst hsplit
  have hinv := C2Inv.process_prefix l1 Partition.new l2 (C2Inv.init _)
    (fun tr htr => hpos tr (by simp [htr])) hso
    (backed_of_append l1 l2 _ hb)
  obtain ⟨M, hHeld, hPos, _, _, _, hAvail⟩ := hinv
  have hheld : 0 ≤ ((Partition.processAll Partition.new l1).acct c).held_funds := by
    rw [hHeld c]
    apply Multiset.sum_nonneg
    intro x hx
    obtain ⟨q, hq, rfl⟩ := Multiset.mem_map.mp hx
    exact le_of_lt (hPos c q hq)
  exact ⟨hAvail c, hheld, add_nonneg (hAvail c) hheld⟩

/-- Witness for C2's amended statement on a concrete stream: deposit 5,
dispute it, resolve once, withdraw 3 — all balances stay non-negative. -/
theorem held_and_total_nonneg_witness :
    posAmounts [.Deposit ⟨1, 1⟩ 5, .Dispute ⟨1, 1⟩, .Resolve ⟨1, 1⟩,
      .Withdrawal ⟨1, 2⟩ 3] ∧
    settleOnce [.Deposit ⟨1, 1⟩ 5, .Dispute ⟨1, 1⟩, .Resolve ⟨1, 1⟩,
      .Withdrawal ⟨1, 2⟩ 3] ∧
    backed Partition.new [.Deposit ⟨1, 1⟩ 5, .Dispute ⟨1, 1⟩, .Resolve ⟨1, 1⟩,
      .Withdrawal ⟨1, 2⟩ 3] ∧
    (0 ≤ ((Partition.processAll Partition.new
        [.Deposit ⟨1, 1⟩ 5, .Dispute ⟨1, 1⟩, .Resolve ⟨1, 1⟩,
         .Withdrawal ⟨1, 2⟩ 3]).acct 1).available_funds ∧
     0 ≤ ((Partition.processAll Partition.new
        [.Deposit ⟨1, 1⟩ 5, .Dispute ⟨1, 1⟩, .Resolve ⟨1, 1⟩,
         .Withdrawal ⟨1, 2⟩ 3]).acct 1).held_funds ∧
     0 ≤ ((Partition.processAll Partition.new
        [.Deposit ⟨1, 1⟩ 5, .Dispute ⟨1, 1⟩, .Resolve ⟨1, 1⟩,
         .Withdrawal ⟨1, 2⟩ 3]).acct 1).available_funds +
         ((Partition.processAll Partition.new
        [.Deposit ⟨1, 1⟩ 5, .Dispute ⟨1, 1⟩, .Resolve ⟨1, 1⟩,
         .Withdrawal ⟨1, 2⟩ 3]).acct 1).held_funds) :=
  ⟨by decide, by decide, by decide,
   held_and_total_nonneg
     [.Deposit ⟨1, 1⟩ 5, .Dispute ⟨1, 1⟩, .Resolve ⟨1, 1⟩,
      .Withdrawal ⟨1, 2⟩ 3]
     (by decide) (by decide) (by decide)
     [.Deposit ⟨1, 1⟩ 5, .Dispute ⟨1, 1⟩, .Resolve ⟨1, 1⟩,
      .Withdrawal ⟨1, 2⟩ 3]
     [] (by simp) 1⟩

/-- Counterexample to claim C1 as stated: with the stream
`Deposit(client 2, id 7, 5); Dispute(client 1, id 7); Dispute(client 2, id 7)`
and two workers separating clients 1 and 2, the sharded run and the
single sequential partition disagree on client 2's final account.  In
the single partition the foreign dispute overwrites history entry 7, so
client 2's own dispute becomes a no-op; in the sharded run client 2's
worker never sees the foreign dispute and the hold succeeds. -/
theorem processor_refines_single_cex :
    Processor.finalAccount 2 (fun c => c)
        [.Deposit ⟨2, 7⟩ 5, .Dispute ⟨1, 7⟩, .Dispute ⟨2, 7⟩] 2 ≠
      singleFinal [.Deposit ⟨2, 7⟩ 5, .Dispute ⟨1, 7⟩, .Dispute ⟨2, 7⟩] 2 := by
  decide

/-- Claim C1 (corrected): provided no two transactions of different
clients share a transaction id, routing each transaction to worker
`hash(client_id) % n` and running each worker's shard sequentially in
submission order yields, for every client, exactly the final account of
the single sequential partition — for every worker count `n ≥ 1` and
every hash. -/
theorem processor_refines_single (n : ℕ) (hash : ClientId → ℕ)
    (l : List Transaction) (_hn : 1 ≤ n)
    (huniq : ∀ tr1 ∈ l, ∀ tr2 ∈ l,
      tr1.meta.transaction_id = tr2.meta.transaction_id →
      tr1.meta.client_id = tr2.meta.client_id) :
    ∀ c, Processor.finalAccount n hash l c = singleFinal l c := by
  intro c
  have hcoh := ownerOf_spec l huniq
  have hRel := Rel.submit_all (ownerOf l) (fun c' => hash c' % n) l
    Partition.new (fun _ => Partition.new)
    (Rel.base (ownerOf l) (fun c' => hash c' % n)) hcoh
  have hA1 := hRel.1 c
  unfold Processor.finalAccount singleFinal
  rw [workerFinal_eq_runW]
  exact hA1

/-- Witness for C1's amended statement: two clients with private ids,
two workers, identical final accounts. -/
theorem processor_refines_single_witness :
    1 ≤ 2 ∧
    Processor.finalAccount 2 (fun c => c)
        [.Deposit ⟨1, 1⟩ 5, .Deposit ⟨2, 2⟩ 3, .Dispute ⟨2, 2⟩] 2 =
      singleFinal [.Deposit ⟨1, 1⟩ 5, .Deposit ⟨2, 2⟩ 3, .Dispute ⟨2, 2⟩] 2 :=
  ⟨by decide,
   processor_refines_single 2 (fun c => c) _ (by decide) (by decide) 2⟩

end Transactor
